import Mathlib

/-! Verification development for the XLIFF translator (`app.py`).

The Python source is shallowly embedded. Strings are Lean `String` /
`List Char` (character classes are read on ASCII text, which is what the
regular expressions in the source are aimed at); `None`-able strings are
`Option String`; lxml elements are the inductive `Elem` below; and the
external `GoogleTranslator.translate` call is a parameter
`g : String → Option String`, where `none` stands for a raised exception.
Each `re.sub` call of the source is embedded as an explicit left-to-right
scanner with one dedicated matcher per pattern of `NONTRANS_PATTERNS`,
mirroring Python's leftmost-match, greedy-with-backtracking semantics for
those six concrete patterns.  Where a function of the source is
instrumented (for example to report whether the external translator was
called), the instrumented definition carries the source name plus a
`_trace` suffix and the plain source-named definition is its first
projection.
-/

namespace XliffApp

/-- Python `\s` on ASCII text: space, tab, newline, carriage return,
vertical tab, form feed. -/
def isPySpace (c : Char) : Bool :=
  c = ' ' || c = '\t' || c = '\n' || c = '\r' || c = '\x0b' || c = '\x0c'

/-- Python `\w` on ASCII text. -/
def isWordChar (c : Char) : Bool := c.isAlphanum || c = '_'

/-- Character class `[0-9A-Fa-f]`. -/
def isHexChar (c : Char) : Bool :=
  c.isDigit || ('A' ≤ c && c ≤ 'F') || ('a' ≤ c && c ≤ 'f')

/-- Python `str.strip()` on ASCII text. -/
def pyStrip (s : String) : String :=
  String.mk (((s.data.dropWhile isPySpace).reverse.dropWhile isPySpace).reverse)

/-- Truthiness of a Python string. -/
def pyTruthy (s : String) : Bool := !s.isEmpty

/-- Truthiness of an optional Python string: `None` and `""` are falsy. -/
def optTruthy : Option String → Bool
  | none => false
  | some s => pyTruthy s

/-- `safe_str` from `app.py`, on optional strings: `None` becomes `""`. -/
def safe_str : Option String → String
  | none => ""
  | some s => s

/-- `isPre p s` holds when `p` is a prefix of `s`. -/
def isPre : List Char → List Char → Bool
  | [], _ => true
  | _ :: _, [] => false
  | a :: p, b :: s => a = b && isPre p s

/-- `occursIn p s` holds when `p` occurs as a contiguous substring of `s`. -/
def occursIn (p : List Char) : List Char → Bool
  | [] => isPre p []
  | c :: s => isPre p (c :: s) || occursIn p s

/-- One Python `str.replace(pat, rep)`: scan left to right, replace each
non-overlapping occurrence, and continue scanning after the replacement
(replacements are not rescanned).  `fuel` bounds the recursion; callers
pass the length of the scanned text, which suffices because every step
consumes at least one character of it (`pat` is never empty here). -/
def replaceAllAux (pat rep : List Char) : Nat → List Char → List Char
  | _, [] => []
  | 0, s => s
  | fuel + 1, c :: s =>
    if isPre pat (c :: s) then rep ++ replaceAllAux pat rep fuel ((c :: s).drop pat.length)
    else c :: replaceAllAux pat rep fuel s

/-- Python `str.replace` on character lists. -/
def replaceAll (pat rep s : List Char) : List Char := replaceAllAux pat rep s.length s

/-- The `__TK<i>__` placeholder produced by `protect_nontranslatable`. -/
def phChars (i : Nat) : List Char := ("__TK").data ++ (Nat.repr i).data ++ ("__").data

/-- The descending loop of `restore_nontranslatable`: replace `__TK<i>__`
for `i = n-1, n-2, …, 0`. -/
def restoreSteps (tokens : List String) : Nat → List Char → List Char
  | 0, text => text
  | i + 1, text => restoreSteps tokens i (replaceAll (phChars i) (tokens.getD i ("")).data text)

/-- `restore_nontranslatable` from `app.py`. -/
def restore_nontranslatable (text : String) (tokens : List String) : String :=
  if tokens.isEmpty then text
  else String.mk (restoreSteps tokens tokens.length text.data)

/-- Length of the maximal prefix of `s` whose characters satisfy `p`. -/
def runLen (p : Char → Bool) (s : List Char) : Nat := (s.takeWhile p).length

/-- Matcher for `https?://\S+` at the current position. -/
def matchHttp (s : List Char) : Option Nat :=
  match s with
  | 'h' :: 't' :: 't' :: 'p' :: rest =>
    let st := match rest with
      | 's' :: r => (5, r)
      | r => (4, r)
    match st.2 with
    | ':' :: '/' :: '/' :: r2 =>
      let n := runLen (fun c => !isPySpace c) r2
      if n = 0 then none else some (st.1 + 3 + n)
    | _ => none
  | _ => none

/-- Matcher for `www\.\S+` at the current position. -/
def matchWww (s : List Char) : Option Nat :=
  match s with
  | 'w' :: 'w' :: 'w' :: '.' :: rest =>
    let n := runLen (fun c => !isPySpace c) rest
    if n = 0 then none else some (4 + n)
  | _ => none

/-- Character class `[\w\.-]` of the e-mail pattern. -/
def isEmailChar (c : Char) : Bool := isWordChar c || c = '.' || c = '-'

/-- Backtracking of `[\w\.-]+\.\w+` over the maximal e-mail-character run
`r`: the largest `j ≥ 1` with `r[j] = '.'` and `r[j+1]` a word character. -/
def lastDotIdx (r : List Char) : Nat → Option Nat
  | 0 => none
  | j + 1 =>
    if 1 ≤ j && r.getD j ('x') = '.' && isWordChar (r.getD (j + 1) (' ')) && j + 1 < r.length
    then some j
    else lastDotIdx r j

/-- Matcher for `[\w\.-]+@[\w\.-]+\.\w+` at the current position.  The
first run is maximal (no backtracking can help, since `@` is outside the
class); the run after `@` backtracks to the last dot followed by a word
character, and `\w+` is then maximal. -/
def matchEmail (s : List Char) : Option Nat :=
  let a := runLen isEmailChar s
  if a = 0 then none else
  match s.drop a with
  | '@' :: rest =>
    let r := rest.takeWhile isEmailChar
    match lastDotIdx r r.length with
    | none => none
    | some j =>
      let w := runLen isWordChar (r.drop (j + 1))
      some (a + 1 + j + 1 + w)
  | _ => none

/-- Matcher for `%[^%\n\r]+%` (Storyline variables) at the current
position. -/
def matchPercentVar (s : List Char) : Option Nat :=
  match s with
  | '%' :: rest =>
    let n := runLen (fun c => !(c = '%' || c = '\n' || c = '\r')) rest
    if n = 0 then none
    else match rest.drop n with
      | '%' :: _ => some (n + 2)
      | _ => none
  | _ => none

/-- Matcher for `&[#xX]?[0-9A-Fa-f]+;|&[A-Za-z]+;` at the current
position: the first alternative is tried first, with the optional
`[#xX]` consumed greedily and given back on failure. -/
def matchEntity (s : List Char) : Option Nat :=
  match s with
  | '&' :: rest =>
    let tryHex : List Char → Nat → Option Nat := fun r extra =>
      let n := runLen isHexChar r
      if n = 0 then none
      else match r.drop n with
        | ';' :: _ => some (1 + extra + n + 1)
        | _ => none
    let alt1 := match rest with
      | c :: r2 =>
        if c = '#' || c = 'x' || c = 'X' then
          match tryHex r2 1 with
          | some n => some n
          | none => tryHex rest 0
        else tryHex rest 0
      | [] => none
    match alt1 with
    | some n => some n
    | none =>
      let m := runLen Char.isAlpha rest
      if m = 0 then none
      else match rest.drop m with
        | ';' :: _ => some (1 + m + 1)
        | _ => none
  | _ => none

/-- Character class `[\d\.,/:_-]` of the numbers/dates pattern. -/
def isNumTailChar (c : Char) : Bool :=
  c.isDigit || c = '.' || c = ',' || c = '/' || c = ':' || c = '_' || c = '-'

/-- Word boundary between a last consumed character and the following
character (`none` at the end of the text). -/
def numBoundary (lastC : Char) (next : Option Char) : Bool :=
  isWordChar lastC != (match next with | some c => isWordChar c | none => false)

/-- Backtracking of the trailing `\b` of `\b\d[\d\.,/:_-]*\b`: try the
maximal run first, then give characters back until the boundary holds. -/
def matchNumAux (d : Char) (run after : List Char) : Nat → Option Nat
  | 0 => if numBoundary d ((run ++ after).head?) then some 1 else none
  | k + 1 =>
    if numBoundary (run.getD k (' ')) ((run.drop (k + 1) ++ after).head?) then some (k + 2)
    else matchNumAux d run after k

/-- Matcher for `\b\d[\d\.,/:_-]*\b` at the current position; `prev` is
the character before this position in the original text, used for the
leading word boundary. -/
def matchNum (prev : Option Char) (s : List Char) : Option Nat :=
  match s with
  | c :: rest =>
    if c.isDigit && !(match prev with | some p => isWordChar p | none => false) then
      let run := rest.takeWhile isNumTailChar
      matchNumAux c run (rest.drop run.length) run.length
    else none
  | [] => none

/-- A compiled pattern: given the character before the current position
(for word boundaries) and the rest of the text, the length of the match
at this position, if any. -/
def Matcher : Type := Option Char → List Char → Option Nat

def mHttp : Matcher := fun _ s => matchHttp s

def mWww : Matcher := fun _ s => matchWww s

def mEmail : Matcher := fun _ s => matchEmail s

def mPercentVar : Matcher := fun _ s => matchPercentVar s

def mEntity : Matcher := fun _ s => matchEntity s

def mNum : Matcher := fun prev s => matchNum prev s

/-- `NONTRANS_PATTERNS` from `app.py`, in source order. -/
def NONTRANS_PATTERNS : List Matcher :=
  [mHttp, mWww, mEmail, mPercentVar, mEntity, mNum]

/-- One `re.sub(pat, repl, text)` call of `protect_nontranslatable`:
scan left to right; each match is replaced by `__TK<idx>__` where `idx`
is the number of tokens collected so far, and the matched substring is
appended to the token list.  `prev` is the previous character of the
text being scanned (matching contexts come from the scanned text, since
`re.sub` builds its output separately).  `fuel` bounds the recursion;
callers pass the text length, which suffices because every step consumes
at least one character. -/
def reSubTok (m : Matcher) : Nat → Option Char → List Char → List String → List Char × List String
  | _, _, [], toks => ([], toks)
  | 0, _, s, toks => (s, toks)
  | fuel + 1, prev, c :: s, toks =>
    match m prev (c :: s) with
    | some n =>
      if 0 < n then
        let matched := (c :: s).take n
        let res := reSubTok m fuel matched.getLast? ((c :: s).drop n) (toks ++ [String.mk matched])
        (phChars toks.length ++ res.1, res.2)
      else
        let res := reSubTok m fuel (some c) s toks
        (c :: res.1, res.2)
    | none =>
      let res := reSubTok m fuel (some c) s toks
      (c :: res.1, res.2)

/-- The matched substrings of one pass, in left-to-right encounter
order (no replacement; used to state ordering properties). -/
def collectMatches (m : Matcher) : Nat → Option Char → List Char → List String
  | _, _, [] => []
  | 0, _, _ => []
  | fuel + 1, prev, c :: s =>
    match m prev (c :: s) with
    | some n =>
      if 0 < n then
        String.mk ((c :: s).take n) :: collectMatches m fuel ((c :: s).take n).getLast? ((c :: s).drop n)
      else collectMatches m fuel (some c) s
    | none => collectMatches m fuel (some c) s

/-- The `for pat in NONTRANS_PATTERNS` loop of `protect_nontranslatable`. -/
def protectPasses : List Matcher → List Char × List String → List Char × List String
  | [], st => st
  | m :: ms, st => protectPasses ms (reSubTok m st.1.length none st.1 st.2)

/-- `protect_nontranslatable` from `app.py`. -/
def protect_nontranslatable (text : String) : String × List String :=
  if text.isEmpty then ((""), [])
  else
    let st := protectPasses NONTRANS_PATTERNS (text.data, [])
    (String.mk st.1, st.2)

/-- `translate_text_unit` from `app.py`, instrumented: besides the
result it returns whether the external translator was invoked and the
token list produced by the protection step.  `g t = none` models the
translation call raising an exception on input `t`. -/
def translate_text_unit_trace (g : String → Option String) (text : String) :
    String × Bool × List String :=
  if (pyStrip text).isEmpty then (text, false, [])
  else
    let pt := protect_nontranslatable text
    let out := match g pt.1 with
      | some s => s
      | none => pt.1
    (restore_nontranslatable out pt.2, true, pt.2)

/-- `translate_text_unit` from `app.py` (result only). -/
def translate_text_unit (g : String → Option String) (text : String) : String :=
  (translate_text_unit_trace g text).1

/-- An lxml `_Element`: tag (in lxml's `\x7buri\x7dlocal` form when
namespaced), attributes in document order, text, children in document
order, tail, and the default namespace visible at this element
(`elem.nsmap.get(None)`, which lxml inherits from the ancestors). -/
inductive Elem where
  | mk (tag : String) (attrib : List (String × String)) (text : Option String)
      (children : List Elem) (tail : Option String) (nsdefault : Option String)
deriving Repr

def Elem.tag : Elem → String
  | .mk t _ _ _ _ _ => t

def Elem.attrib : Elem → List (String × String)
  | .mk _ a _ _ _ _ => a

def Elem.text : Elem → Option String
  | .mk _ _ tx _ _ _ => tx

def Elem.children : Elem → List Elem
  | .mk _ _ _ ch _ _ => ch

def Elem.tail : Elem → Option String
  | .mk _ _ _ _ tl _ => tl

def Elem.nsdefault : Elem → Option String
  | .mk _ _ _ _ _ ns => ns

def Elem.withText (e : Elem) (tx : Option String) : Elem :=
  match e with
  | .mk t a _ ch tl ns => .mk t a tx ch tl ns

def Elem.withChildren (e : Elem) (ch : List Elem) : Elem :=
  match e with
  | .mk t a tx _ tl ns => .mk t a tx ch tl ns

def Elem.withTail (e : Elem) (tl : Option String) : Elem :=
  match e with
  | .mk t a tx ch _ ns => .mk t a tx ch tl ns

mutual

/-- `translate_node_texts` from `app.py`: translate the element's own
text when it is non-`None` with non-blank strip, recurse into each child
in order, and after each child's recursion translate that child's tail
under the same condition.  The element's own tail is not touched at this
level (only children's tails are). -/
def translate_node_texts (g : String → Option String) : Elem → Elem
  | .mk tag attrib text children tail ns =>
    let text' := match text with
      | some s => if (pyStrip s).isEmpty then some s else some (translate_text_unit g s)
      | none => none
    .mk tag attrib text' (translateChildren g children) tail ns

def translateChildren (g : String → Option String) : List Elem → List Elem
  | [] => []
  | c :: cs =>
    let c1 := translate_node_texts g c
    let c2 := match c1.tail with
      | some s => if (pyStrip s).isEmpty then c1 else c1.withTail (some (translate_text_unit g s))
      | none => c1
    c2 :: translateChildren g cs

end

/-- The structure of an element with the translatable fields (text and
tails) erased: tag, attributes, and the structures of the children. -/
inductive Shape where
  | node (tag : String) (attrib : List (String × String)) (kids : List Shape)
deriving Repr

mutual

def Elem.shape : Elem → Shape
  | .mk t a _ ch _ _ => .node t a (shapeList ch)

def shapeList : List Elem → List Shape
  | [] => []
  | c :: cs => c.shape :: shapeList cs

end

/-- The XLIFF 1.2 namespace used as fallback in `ensure_target_for_source`. -/
def XLIFF12_NS : String := "urn:oasis:names:tc:xliff:document:1.2"

/-- `ensure_target_for_source` from `app.py`.  `parent` is
`src.getparent()`; Python's `parent.nsmap.get(None) or "urn:…:1.2"`
falls back when the default namespace is absent or empty.  When `tgt`
is `None` a fresh `\x7bns\x7dtarget` element is created and appended at
the end of the parent's children (`parent.append(tgt)`).  Returns the
updated parent and the target element. -/
def ensure_target_for_source (parent : Elem) (tgt : Option Elem) : Elem × Elem :=
  match tgt with
  | some t => (parent, t)
  | none =>
    let ns := match parent.nsdefault with
      | some s => if s.isEmpty then XLIFF12_NS else s
      | none => XLIFF12_NS
    let t := Elem.mk ("\x7b" ++ ns ++ "\x7dtarget") [] none [] none parent.nsdefault
    (parent.withChildren (parent.children ++ [t]), t)

/-- `clear()` on an lxml element: drops text, children, attributes and
tail, keeping only the tag (and the surrounding namespace scope). -/
def Elem.clear : Elem → Elem
  | .mk tag _ _ _ _ ns => .mk tag [] none [] none ns

/-- Sets the last element's tail to `safe_str` of itself, as
`tgt[-1].tail = safe_str(tmp[-1].tail)` does. -/
def setLastTail : List Elem → List Elem
  | [] => []
  | [c] => [c.withTail (some (safe_str c.tail))]
  | c :: cs => c :: setLastTail cs

/-- The body of the per-segment loop of `process` (Rise flavour):
`tmp = deepcopy(src)` (the identity in this pure embedding), then
`translate_node_texts`, `ensure_target_for_source`, `tgt.clear()`, move
of the translated children into the target, `tgt.text = safe_str(tmp.text)`
and, when children exist, `tgt[-1].tail = safe_str(tmp[-1].tail)`.
Returns the element stored as the target after the iteration. -/
def processSegment (g : String → Option String) (parent src : Elem) (tgt : Option Elem) : Elem :=
  let tmp := translate_node_texts g src
  let t0 := (ensure_target_for_source parent tgt).2
  let t1 := t0.clear
  ((t1.withChildren (setLastTail tmp.children)).withText (some (safe_str tmp.text)))

/-- The `for i, (src, tgt) in enumerate(pairs, start=1)` loop of
`process`, instrumented: processes each (parent, source, optional
target) triple in order and records the 1-based indices at which the
loop body reported progress (the source guards the report with
`i == 1 or i % 10 == 0 or i == total`).  Returns the produced targets
and the reporting indices. -/
def processLoop (g : String → Option String) (total : Nat) :
    Nat → List (Elem × Elem × Option Elem) → List Elem × List Nat
  | _, [] => ([], [])
  | i, triple :: rest =>
    let t := processSegment g triple.1 triple.2.1 triple.2.2
    let res := processLoop g total (i + 1) rest
    (t :: res.1, (if i = 1 || i % 10 = 0 || i = total then [i] else []) ++ res.2)

/-- The reporting indices of one `process` run over `pairs`
(`total = max(len(pairs), 1)` as in the source). -/
def processReports (g : String → Option String) (pairs : List (Elem × Elem × Option Elem)) :
    List Nat :=
  (processLoop g (max pairs.length 1) 1 pairs).2

/-- `_needs_space` from `app.py`: empty strings never need a space;
otherwise `a[-1]` and `b[0]` decide (read here through the character
lists). -/
def needs_space (a b : String) : Bool :=
  match a.data.getLast?, b.data.head? with
  | some x, some y =>
    if x.isAlphanum && y.isAlphanum then true
    else if (x = ',' || x = '.' || x = ';' || x = ':' || x = '!' || x = '?') && y.isAlphanum
    then true
    else false
  | _, _ => false

/-- State of the whitespace-collapsing scanner: outside whitespace, one
pending whitespace character, or inside an already-collapsed run. -/
inductive WsState where
  | norm
  | pend (w : Char)
  | run
deriving Repr

/-- Scanner equivalent to Python's `re.sub` of two-or-more whitespace
characters by a single space: a maximal whitespace run of length at
least two becomes one space, runs of length one are kept as they are. -/
def collapseWsAux : WsState → List Char → List Char
  | .norm, [] => []
  | .pend w, [] => [w]
  | .run, [] => []
  | .norm, c :: r => if isPySpace c then collapseWsAux (.pend c) r else c :: collapseWsAux .norm r
  | .pend w, c :: r =>
    if isPySpace c then ' ' :: collapseWsAux .run r else w :: c :: collapseWsAux .norm r
  | .run, c :: r => if isPySpace c then collapseWsAux .run r else c :: collapseWsAux .norm r

/-- The whitespace-collapsing `re.sub` call of `fix_spacing_around_tags`. -/
def collapseWs (s : String) : String := String.mk (collapseWsAux .norm s.data)

/-- Python `s.startswith((" ", "\n", "\t"))`. -/
def startsWithSpaceNlTab (s : String) : Bool :=
  match s.data with
  | c :: _ => c = ' ' || c = '\n' || c = '\t'
  | [] => false

/-- The `if prev is not None` block of the `fix_spacing_around_tags`
loop body: may update `prev.tail` and `cur.text`. -/
def spacingPrevStep (prev cur : Elem) : Elem × Elem :=
  if optTruthy prev.tail && optTruthy cur.text then
    let pt0 := safe_str prev.tail
    let pt1 := if needs_space pt0 (safe_str cur.text) then pt0 ++ (" ") else pt0
    (prev.withTail (some (collapseWs pt1)), cur)
  else if optTruthy prev.tail && !optTruthy cur.text then
    (prev.withTail (some (collapseWs (safe_str prev.tail))), cur)
  else if !optTruthy prev.tail && optTruthy cur.text then
    if needs_space (safe_str prev.text) (safe_str cur.text) then
      (prev, cur.withText (some ((" ") ++ safe_str cur.text)))
    else (prev, cur)
  else (prev, cur)

/-- The `if nxt is not None` block of the `fix_spacing_around_tags`
loop body: updates `cur.tail` using `cur.text` and `nxt.text`. -/
def spacingNextStep (cur : Elem) (nxtText : Option String) : Elem :=
  if optTruthy cur.text && optTruthy nxtText then
    if needs_space (safe_str cur.text) (safe_str nxtText) then
      let t0 := safe_str cur.tail
      let t1 :=
        if t0.isEmpty then (" ")
        else if !startsWithSpaceNlTab t0 then (" ") ++ t0
        else t0
      cur.withTail (some (collapseWs t1))
    else cur
  else
    let t0 := safe_str cur.tail
    if t0.isEmpty then cur.withTail (some t0)
    else
      let t1 :=
        if needs_space (safe_str cur.text) (match nxtText with | some s => s | none => (""))
            && !startsWithSpaceNlTab t0
        then (" ") ++ t0 else t0
      cur.withTail (some (collapseWs t1))

/-- The new-tail computation of the nxt-block, as a pure function of
the current child's text, its tail, and the next child's text. -/
def nTailFun (ct l0 nt : Option String) : Option String :=
  if optTruthy ct && optTruthy nt then
    if needs_space (safe_str ct) (safe_str nt) then
      let t0 := safe_str l0
      let t1 :=
        if t0.isEmpty then (" ")
        else if !startsWithSpaceNlTab t0 then (" ") ++ t0
        else t0
      some (collapseWs t1)
    else l0
  else
    let t0 := safe_str l0
    if t0.isEmpty then some t0
    else
      let t1 :=
        if needs_space (safe_str ct) (match nt with | some s => s | none => (""))
            && !startsWithSpaceNlTab t0
        then (" ") ++ t0 else t0
      some (collapseWs t1)

/-- The new-tail computation of the prev-block for the previous child,
as a pure function of the previous child's tail and the current child's
text (the last branch of the block never touches the previous child's
tail). -/
def pTailFun (l1 ct2 : Option String) : Option String :=
  if optTruthy l1 && optTruthy ct2 then
    let pt0 := safe_str l1
    some (collapseWs (if needs_space pt0 (safe_str ct2) then pt0 ++ (" ") else pt0))
  else if optTruthy l1 && !optTruthy ct2 then some (collapseWs (safe_str l1))
  else l1

/-- Composite per-boundary tail update: what one loop sweep does to the
tail of a child that has a following sibling (the nxt-block when the
child is current, then the prev-block when its successor is current). -/
def spacingTailFun (ct l0 nt : Option String) : Option String :=
  pTailFun (nTailFun ct l0 nt) nt

/-- Windowed form of the per-element spacing sweep: the tail of every
child with a following sibling is rewritten by `spacingTailFun`, texts
and the last tail are untouched. -/
def spacingWinMap : List Elem → List Elem
  | [] => []
  | c :: rest =>
    (match rest with
      | [] => c
      | n :: _ => c.withTail (spacingTailFun c.text c.tail n.text)) :: spacingWinMap rest

/-- The `for i, cur in enumerate(kids)` loop of `fix_spacing_around_tags`
over one element's children, carrying the previous child (with its
pending updates): for each child, the prev-block runs when a previous
child exists, then the nxt-block runs when a next child exists, reading
the next child's not-yet-processed text — exactly the order of effects
of the source loop. -/
def spacingLoop : Option Elem → List Elem → List Elem
  | none, [] => []
  | some p, [] => [p]
  | none, c :: rest =>
    let c1 := match rest with
      | [] => c
      | n :: _ => spacingNextStep c n.text
    spacingLoop (some c1) rest
  | some p, c :: rest =>
    let pc := spacingPrevStep p c
    let c1 := match rest with
      | [] => pc.2
      | n :: _ => spacingNextStep pc.2 n.text
    pc.1 :: spacingLoop (some c1) rest

/-- The value carried into the loop's tail call for a child whose
following siblings are `l`: untouched when it is the last child, else
updated by the nxt-block against the next sibling's text. -/
def nextCarry (c : Elem) : List Elem → Elem
  | [] => c
  | n :: _ => spacingNextStep c n.text

/-- The final form of a child whose following siblings are `l`:
unchanged when last, else its tail rewritten by the composite
per-boundary update. -/
def finalizeHead (c : Elem) : List Elem → Elem
  | [] => c
  | n :: _ => c.withTail (spacingTailFun c.text c.tail n.text)

mutual

/-- `fix_spacing_around_tags` from `app.py`.  The source iterates the
whole tree (`root.iter()`, parents before children) and, at each element
with children, runs the loop above on that element's child list in
place.  The block run at an element reads and writes only the text and
tail fields of that element's own children, while the recursion into a
child only rewrites that child's `children` field — the two commute, so
the pre-order in-place traversal is equivalent to this structural
recursion (children first, then this element's block). -/
def fix_spacing_around_tags : Elem → Elem
  | .mk t a tx ch tl ns => .mk t a tx (spacingLoop none (fixSpacingList ch)) tl ns

def fixSpacingList : List Elem → List Elem
  | [] => []
  | c :: cs => fix_spacing_around_tags c :: fixSpacingList cs

end

/-! Concrete fixtures used in counterexamples and witnesses. -/

/-- A translator whose underlying call always raises. -/
def gFail : String → Option String := fun _ => none

/-- A translation stub that upper-cases what it is given (ASCII). -/
def gUpper : String → Option String := fun s => some (String.mk (s.data.map Char.toUpper))

/-- Minimal segment element. -/
def dummyElem : Elem := Elem.mk ("u") [] none [] none none

/-- Twelve enumerated segments (each with no pre-existing target). -/
def pairs12 : List (Elem × Elem × Option Elem) :=
  List.replicate 12 (dummyElem, dummyElem, none)

/-- The source element of the spec's inline-markup scenario:
`<source>Click <g id="1">here</g> to continue.</source>`. -/
def scenarioSource : Elem :=
  Elem.mk ("source") []
    (some ("Click "))
    [Elem.mk ("g") [(("id"), ("1"))] (some ("here")) [] (some (" to continue.")) none]
    none none

/-- A `trans-unit` parent whose source (in a prefix-bound namespace,
hence no default namespace on the parent) is followed by a note. -/
def parentC3 : Elem :=
  Elem.mk ("\x7burn:x\x7dtrans-unit") [] none
    [Elem.mk ("\x7burn:x\x7dsource") [] (some ("hi")) [] none none,
     Elem.mk ("\x7burn:x\x7dnote") [] (some ("a note")) [] none none]
    none none

/-- The spec's placeholder-safety example text. -/
def c2Text : String := "Hello \x7bname\x7d, you scored %d%%"

/-- Head test for a literal `__TK<digits>__` substring. -/
def tokenLiteralAt (s : List Char) : Bool :=
  match s with
  | '_' :: '_' :: 'T' :: 'K' :: rest =>
    decide (1 ≤ (rest.takeWhile Char.isDigit).length)
      && isPre (("__").data) (rest.drop (rest.takeWhile Char.isDigit).length)
  | _ => false

/-- Whether the text contains a literal `__TK<digits>__` substring. -/
def hasTokenLiteral : List Char → Bool
  | [] => false
  | c :: s => tokenLiteralAt (c :: s) || hasTokenLiteral s

/-- No two adjacent whitespace characters. -/
def noTwoWs : List Char → Bool
  | [] => true
  | [_] => true
  | a :: b :: r => !(isPySpace a && isPySpace b) && noTwoWs (b :: r)

/-- Whether the head, if any, is not whitespace. -/
def headNonWs : List Char → Bool
  | [] => true
  | c :: _ => !isPySpace c

/-- The tail rewritten by the needed-space branch of the nxt-block. -/
def mkT1 (t0 : String) : String :=
  if t0.isEmpty then (" ")
  else if !startsWithSpaceNlTab t0 then (" ") ++ t0
  else t0

/-! Helper lemmas. -/

theorem shape_withTail (e : Elem) (x : Option String) : (e.withTail x).shape = e.shape := by
  cases e; rfl

theorem shapeList_translateChildren (g : String → Option String) :
    ∀ l : List Elem, shapeList (translateChildren g l) = shapeList l
  | [] => rfl
  | c :: cs => by
    have hc : (translate_node_texts g c).shape = c.shape := by
      match c with
      | .mk t a tx ch tl ns =>
        simp only [translate_node_texts, Elem.shape]
        rw [shapeList_translateChildren g ch]
    simp only [translateChildren, shapeList]
    rw [shapeList_translateChildren g cs]
    simp only [List.cons.injEq, and_true]
    cases h : (translate_node_texts g c).tail with
    | none => simpa [h] using hc
    | some s =>
      by_cases hb : (pyStrip s).isEmpty
      · simp [h, hb, hc]
      · simp [h, hb, shape_withTail, hc]

theorem shape_translate_node_texts (g : String → Option String) (e : Elem) :
    (translate_node_texts g e).shape = e.shape := by
  match e with
  | .mk t a tx ch tl ns =>
    simp only [translate_node_texts, Elem.shape]
    rw [shapeList_translateChildren g ch]

theorem shapeList_setLastTail : ∀ l : List Elem, shapeList (setLastTail l) = shapeList l
  | [] => rfl
  | [c] => by
    cases c
    simp [setLastTail, shapeList, Elem.withTail, Elem.shape]
  | c :: c2 :: cs => by
    simp only [setLastTail, shapeList]
    rw [shapeList_setLastTail (c2 :: cs)]
    simp [shapeList]

theorem processSegment_shapes (g : String → Option String) (parent src : Elem)
    (tgt : Option Elem) : shapeList (processSegment g parent src tgt).children
      = shapeList src.children := by
  have h0 : ∀ t : Elem, ((t.clear.withChildren
      (setLastTail (translate_node_texts g src).children)).withText
        (some (safe_str (translate_node_texts g src).text))).children
      = setLastTail (translate_node_texts g src).children := by
    intro t; cases t; rfl
  have h1 : shapeList (setLastTail (translate_node_texts g src).children)
      = shapeList src.children := by
    rw [shapeList_setLastTail]
    have := shape_translate_node_texts g src
    cases src with
    | mk t a tx ch tl ns =>
      simp only [translate_node_texts, Elem.shape, Shape.node.injEq] at this
      simpa [translate_node_texts, Elem.children] using this.2.2
  simp only [processSegment]
  rw [h0, h1]

/-- The indices reported by the instrumented `process` loop, over any
start index. -/
theorem processLoop_reports_mem (g : String → Option String) (total : Nat) :
    ∀ (l : List (Elem × Elem × Option Elem)) (s i : Nat),
      i ∈ (processLoop g total s l).2
        ↔ (s ≤ i ∧ i < s + l.length ∧ (i = 1 ∨ i % 10 = 0 ∨ i = total))
  | [], s, i => by simp [processLoop]; omega
  | triple :: rest, s, i => by
    simp only [processLoop, List.mem_append, processLoop_reports_mem g total rest (s + 1) i,
      List.length_cons]
    split
    case isTrue hcond =>
      simp only [Bool.or_eq_true, decide_eq_true_eq] at hcond
      simp only [List.mem_singleton]
      constructor
      · rintro (rfl | ⟨h1, h2, h3⟩)
        · exact ⟨Nat.le_refl i, by omega, by tauto⟩
        · exact ⟨by omega, by omega, h3⟩
      · rintro ⟨h1, h2, h3⟩
        by_cases hs : i = s
        · exact Or.inl hs
        · exact Or.inr ⟨by omega, by omega, h3⟩
    case isFalse hcond =>
      simp only [Bool.or_eq_true, decide_eq_true_eq] at hcond
      simp only [List.not_mem_nil, false_or]
      constructor
      · rintro ⟨h1, h2, h3⟩
        exact ⟨by omega, by omega, h3⟩
      · rintro ⟨h1, h2, h3⟩
        have hsi : s ≠ i := by rintro rfl; exact hcond (by tauto)
        exact ⟨by omega, by omega, h3⟩


/-! Claim theorems. -/

/-- C1: translating a source element (deepcopy followed by
`translate_node_texts`, as `process` does per segment) preserves the
element's structure exactly — tag names, attributes, and the sequence
and nesting of child elements are unchanged (only `.text` and `.tail`
fields may change); this holds for the whole per-segment target
construction of `process`, and in the spec's scenario the produced
target still carries the `<g>` child with its `id` attribute intact. -/
theorem claim_C1_structure_preserved :
    (∀ (g : String → Option String) (e : Elem), (translate_node_texts g e).shape = e.shape)
    ∧ (∀ (g : String → Option String) (parent src : Elem) (tgt : Option Elem),
        shapeList (processSegment g parent src tgt).children = shapeList src.children)
    ∧ shapeList (processSegment gUpper dummyElem scenarioSource none).children
        = [Shape.node ("g") [(("id"), ("1"))] []] :=
  ⟨fun g e => shape_translate_node_texts g e,
   fun g parent src tgt => processSegment_shapes g parent src tgt,
   by rw [processSegment_shapes]; rfl⟩

/-- C3 counterexample: for a parent whose source is followed by a note,
`ensure_target_for_source` appends the created target at the end of the
parent (after the note, not immediately following the source), and with
the source element namespace-bound to `urn:x` through a prefix (no
default namespace on the parent) the created target's namespace is the
XLIFF 1.2 fallback, not the source's namespace. -/
theorem claim_C3_counterexample :
    ((ensure_target_for_source parentC3 none).1.children.getD 1 dummyElem).tag
        = ("\x7burn:x\x7dnote")
    ∧ (ensure_target_for_source parentC3 none).1.children.length = 3
    ∧ ((ensure_target_for_source parentC3 none).1.children.getD 2 dummyElem).tag
        = ("\x7burn:oasis:names:tc:xliff:document:1.2\x7dtarget")
    ∧ (ensure_target_for_source parentC3 none).2.tag ≠ ("\x7burn:x\x7dtarget") := by
  refine ⟨rfl, rfl, rfl, ?_⟩
  decide

/-- C3 amended: when the target is absent, `ensure_target_for_source`
creates exactly one new target element and appends it as the last child
of the source's parent (so it immediately follows the source only when
the source is the last child), and the created element's namespace is
the parent's default namespace — or the XLIFF 1.2 namespace when that
is absent or empty — which need not be the source's namespace; an
existing target is returned unchanged. -/
theorem claim_C3_amended (parent : Elem) (t : Elem) :
    ensure_target_for_source parent (some t) = (parent, t)
    ∧ (ensure_target_for_source parent none).1.children
        = parent.children ++ [(ensure_target_for_source parent none).2]
    ∧ (ensure_target_for_source parent none).2.tag
        = ("\x7b") ++ (match parent.nsdefault with
            | some s => if s.isEmpty then XLIFF12_NS else s
            | none => XLIFF12_NS) ++ ("\x7dtarget") := by
  refine ⟨rfl, ?_, ?_⟩
  · cases parent with
    | mk tg a tx ch tl ns =>
      cases ns with
      | none => simp [ensure_target_for_source, Elem.withChildren, Elem.children, Elem.nsdefault]
      | some s => simp [ensure_target_for_source, Elem.withChildren, Elem.children, Elem.nsdefault]
  · cases parent with
    | mk tg a tx ch tl ns =>
      cases ns with
      | none => simp [ensure_target_for_source, Elem.tag, Elem.nsdefault]
      | some s => simp [ensure_target_for_source, Elem.tag, Elem.nsdefault]

/-- C10: for a segment whose target element already exists, the Rise
`process` body clears the target before refilling it, so no pre-existing
attribute of the target survives: the produced target's attribute list
is empty. -/
theorem claim_C10_target_cleared (g : String → Option String) (parent src tgt : Elem) :
    (processSegment g parent src (some tgt)).attrib = [] := by
  cases tgt with
  | mk t a tx ch tl ns =>
    simp [processSegment, ensure_target_for_source, Elem.clear, Elem.withChildren,
      Elem.withText, Elem.attrib]

/-- C8 counterexample: with twelve enumerated segments, the `process`
loop reports progress only at `i = 1`, multiples of ten, and `i = total`
— segment 2 produces no report, so a progress update is not emitted for
every segment. -/
theorem claim_C8_counterexample :
    pairs12.length = 12 ∧ ¬ (2 ∈ processReports gFail pairs12) := by
  constructor
  · rfl
  · decide

/-- C8 amended: for a document with `n ≥ 1` enumerated segments, the
`process` loop reports progress exactly at the segment indices `i` in
`1..n` with `i = 1`, `i` a multiple of ten, or `i = n` — incremental
reports are emitted for that subset of segments, not after every
segment. -/
theorem claim_C8_amended (g : String → Option String)
    (pairs : List (Elem × Elem × Option Elem)) (i : Nat)
    (hn : 1 ≤ pairs.length) :
    i ∈ processReports g pairs
      ↔ (1 ≤ i ∧ i ≤ pairs.length ∧ (i = 1 ∨ i % 10 = 0 ∨ i = pairs.length)) := by
  have htot : max pairs.length 1 = pairs.length := by omega
  rw [processReports, htot, processLoop_reports_mem g pairs.length pairs 1 i]
  omega

/-- Witness for the C8 amended theorem at twelve segments and `i = 10`. -/
theorem claim_C8_amended_witness : 10 ∈ processReports gFail pairs12 :=
  (claim_C8_amended gFail pairs12 10 (by decide)).mpr (by decide)

/-- C6: for blank input (empty or whitespace-only), `translate_text_unit`
returns the text unchanged, produces no tokens, and never invokes the
external translation call. -/
theorem claim_C6_blank_short_circuit (g : String → Option String) (text : String)
    (h : pyStrip text = ("")) :
    translate_text_unit_trace g text = (text, false, []) := by
  have hb : (pyStrip text).isEmpty = true := by rw [h]; rfl
  simp [translate_text_unit_trace, hb]

/-- Witness for C6 on a whitespace-only input. -/
theorem claim_C6_blank_short_circuit_witness :
    translate_text_unit_trace gFail ("  \t\n ") = (("  \t\n "), false, []) :=
  claim_C6_blank_short_circuit gFail ("  \t\n ") (by decide)

/-! Substring lemmas for `occursIn` and `replaceAll`. -/

theorem isPre_append_self (p x : List Char) : isPre p (p ++ x) = true := by
  induction p with
  | nil => rfl
  | cons a p ih => simp [isPre, ih]

theorem occursIn_of_isPre {p s : List Char} (h : isPre p s = true) : occursIn p s = true := by
  cases s with
  | nil =>
    cases p with
    | nil => rfl
    | cons a p => simp [isPre] at h
  | cons c s => simp [occursIn, h]

theorem occursIn_cons_of_occursIn {p : List Char} (c : Char) {s : List Char}
    (h : occursIn p s = true) : occursIn p (c :: s) = true := by
  simp [occursIn, h]

/-- After one `str.replace` pass, every occurrence of the pattern in the
input leaves an occurrence of the replacement in the output. -/
theorem replaceAllAux_contains_rep (pat rep : List Char) (hp : pat ≠ []) :
    ∀ (fuel : Nat) (s : List Char), s.length ≤ fuel → occursIn pat s = true →
      occursIn rep (replaceAllAux pat rep fuel s) = true := by
  intro fuel
  induction fuel with
  | zero =>
    intro s hs ho
    cases s with
    | nil =>
      cases pat with
      | nil => exact absurd rfl hp
      | cons a p => simp [occursIn, isPre] at ho
    | cons c s => simp at hs
  | succ fuel ih =>
    intro s hs ho
    cases s with
    | nil =>
      cases pat with
      | nil => exact absurd rfl hp
      | cons a p => simp [occursIn, isPre] at ho
    | cons c s =>
      by_cases hpre : isPre pat (c :: s) = true
      · simp only [replaceAllAux, if_pos hpre]
        exact occursIn_of_isPre (isPre_append_self rep _)
      · simp only [replaceAllAux, if_neg hpre]
        have ho2 : occursIn pat s = true := by
          simp only [occursIn, Bool.or_eq_true] at ho
          rcases ho with h1 | h2
          · exact absurd h1 hpre
          · exact h2
        exact occursIn_cons_of_occursIn c
          (ih s (by simpa using Nat.le_of_succ_le_succ (by simpa using hs)) ho2)

theorem replaceAll_contains_rep {pat rep s : List Char} (hp : pat ≠ [])
    (h : occursIn pat s = true) : occursIn rep (replaceAll pat rep s) = true :=
  replaceAllAux_contains_rep pat rep hp s.length s (Nat.le_refl _) h

/-- One pass of the protection scan appends the matched substrings to
the token list in left-to-right encounter order. -/
theorem reSubTok_tokens (m : Matcher) :
    ∀ (fuel : Nat) (prev : Option Char) (s : List Char) (toks : List String),
      (reSubTok m fuel prev s toks).2 = toks ++ collectMatches m fuel prev s
  | 0, prev, s, toks => by cases s <;> simp [reSubTok, collectMatches]
  | fuel + 1, prev, [], toks => by simp [reSubTok, collectMatches]
  | fuel + 1, prev, c :: s, toks => by
    simp only [reSubTok, collectMatches]
    cases hm : m prev (c :: s) with
    | none => simpa using reSubTok_tokens m fuel (some c) s toks
    | some n =>
      by_cases h : 0 < n
      · simp only [if_pos h]
        rw [reSubTok_tokens m fuel ((c :: s).take n).getLast? ((c :: s).drop n)
          (toks ++ [String.mk ((c :: s).take n)])]
        simp
      · simp only [if_neg h]
        simpa using reSubTok_tokens m fuel (some c) s toks


/-- C2 counterexample: on the spec's example, the code's pattern set
protects only the `%`-delimited run `%d%` — the brace variable gets no
token.  With the upper-casing stub (which maps the `__TK0__` placeholder
to itself, so it only alters non-token text), the output no longer
contains the placeholder substring `\x7bname\x7d` unchanged. -/
theorem claim_C2_counterexample :
    protect_nontranslatable c2Text
        = (("Hello \x7bname\x7d, you scored __TK0__%"), [("%d%")])
    ∧ translate_text_unit gUpper c2Text = ("HELLO \x7bNAME\x7d, YOU SCORED %d%%")
    ∧ occursIn (("\x7bname\x7d").data) (c2Text.data) = true
    ∧ occursIn (("\x7bname\x7d").data) ((translate_text_unit gUpper c2Text).data) = false := by
  refine ⟨rfl, rfl, by decide, by decide⟩

/-- C2 amended: the code's recognized set (`NONTRANS_PATTERNS`) contains
no brace-delimited variable pattern and no bare `%d`-style specifier
pattern; of the spec's example only the `%`-delimited run `%d%` is
protected.  That token is safe: `protect_nontranslatable` shields it as
`__TK0__` (leaving `\x7bname\x7d` exposed), and for any stub output in
which the placeholder still occurs, `restore_nontranslatable` reinstates
the protected substring `%d%` verbatim. -/
theorem claim_C2_amended :
    protect_nontranslatable c2Text
        = (("Hello \x7bname\x7d, you scored __TK0__%"), [("%d%")])
    ∧ (∀ s : String, occursIn (phChars 0) s.data = true →
        occursIn (("%d%").data) ((restore_nontranslatable s [("%d%")]).data) = true) := by
  refine ⟨rfl, ?_⟩
  intro s hs
  show occursIn (("%d%").data)
    (String.mk (restoreSteps [("%d%")] 1 s.data)).data = true
  have hstep : restoreSteps [("%d%")] 1 s.data
      = replaceAll (phChars 0) (("%d%").data) s.data := rfl
  rw [hstep]
  exact replaceAll_contains_rep (by decide) hs

/-- Witness for the C2 amended theorem: a stub output that kept the
placeholder gets `%d%` restored. -/
theorem claim_C2_amended_witness :
    occursIn (("%d%").data)
      ((restore_nontranslatable ("X __TK0__ Y") [("%d%")]).data) = true :=
  claim_C2_amended.2 ("X __TK0__ Y") (by decide)

/-- C7 counterexample: `protect_nontranslatable` applies the patterns
pass by pass, so on `"www.a http://b"` the URL pattern fires first and
token 0 is `"http://b"` even though `"www.a"` is the first protected
substring in left-to-right order of the original text (the original is
token 1, then a space, then token 0). -/
theorem claim_C7_counterexample :
    protect_nontranslatable ("www.a http://b")
        = (("__TK1__ __TK0__"), [("http://b"), ("www.a")])
    ∧ ("www.a http://b") = ("www.a") ++ (" ") ++ ("http://b")
    ∧ (protect_nontranslatable ("www.a http://b")).2.getD 0 ("") ≠ ("www.a") := by
  refine ⟨rfl, rfl, by decide⟩

/-- C7 amended: within one pattern pass of `protect_nontranslatable`,
matches are replaced left to right with freshly indexed tokens and the
matched substrings are appended to the token list in encounter order;
across patterns, tokens are ordered by pattern priority first and
position second, not by global left-to-right position. -/
theorem claim_C7_amended (m : Matcher) (fuel : Nat) (prev : Option Char)
    (s : List Char) (toks : List String) :
    (reSubTok m fuel prev s toks).2 = toks ++ collectMatches m fuel prev s :=
  reSubTok_tokens m fuel prev s toks

/-! Infrastructure for the protect/restore round-trip analysis. -/

theorem isPre_mono_append {p : List Char} : ∀ (a b : List Char), isPre p a = true →
    isPre p (a ++ b) = true := by
  induction p with
  | nil => intro a b _; rfl
  | cons x p ih =>
    intro a b h
    cases a with
    | nil => simp [isPre] at h
    | cons y a =>
      simp only [isPre, Bool.and_eq_true] at h
      simpa [isPre, h.1] using ih a b h.2

theorem isPre_of_append_left {p : List Char} : ∀ (a b : List Char), p.length ≤ a.length →
    isPre p (a ++ b) = true → isPre p a = true := by
  induction p with
  | nil => intro a b _ _; rfl
  | cons x p ih =>
    intro a b hlen h
    cases a with
    | nil => simp at hlen
    | cons y a =>
      simp only [List.cons_append, isPre, Bool.and_eq_true] at h
      simp only [isPre, Bool.and_eq_true]
      exact ⟨h.1, ih a b (by simpa using Nat.le_of_succ_le_succ (by simpa using hlen)) h.2⟩

theorem isPre_append_split {x : List Char} : ∀ (a y b : List Char), x.length = a.length →
    isPre (x ++ y) (a ++ b) = true → x = a ∧ isPre y b = true := by
  induction x with
  | nil =>
    intro a y b hlen h
    cases a with
    | nil => exact ⟨rfl, h⟩
    | cons z a => simp at hlen
  | cons c x ih =>
    intro a y b hlen h
    cases a with
    | nil => simp at hlen
    | cons z a =>
      simp only [List.cons_append, isPre, Bool.and_eq_true, decide_eq_true_eq] at h
      obtain ⟨h1, h2⟩ := h
      obtain ⟨h3, h4⟩ := ih a y b (by simpa using hlen) h2
      exact ⟨by rw [h1, h3], h4⟩

theorem isPre_of_isPre_append {p q : List Char} : ∀ l : List Char,
    isPre (p ++ q) l = true → isPre p l = true := by
  induction p with
  | nil => intro l _; rfl
  | cons x p ih =>
    intro l h
    cases l with
    | nil => simp [isPre] at h
    | cons y l =>
      simp only [List.cons_append, isPre, Bool.and_eq_true] at h
      simpa [isPre, h.1] using ih l h.2

theorem occursIn_of_isPre_drop {p : List Char} : ∀ (i : Nat) (s : List Char),
    isPre p (s.drop i) = true → occursIn p s = true := by
  intro i
  induction i with
  | zero => intro s h; exact occursIn_of_isPre (by simpa using h)
  | succ i ih =>
    intro s h
    cases s with
    | nil => exact occursIn_of_isPre (by simpa using h)
    | cons c s => exact occursIn_cons_of_occursIn c (ih s (by simpa using h))

theorem occursIn_append_left {p : List Char} : ∀ (a b : List Char), occursIn p a = true →
    occursIn p (a ++ b) = true := by
  intro a
  induction a with
  | nil =>
    intro b h
    cases p with
    | nil => cases b <;> simp [occursIn, isPre]
    | cons x p => simp [occursIn, isPre] at h
  | cons c a ih =>
    intro b h
    simp only [occursIn, Bool.or_eq_true] at h
    rcases h with h | h
    · simpa [occursIn] using Or.inl (isPre_mono_append (c :: a) b h)
    · simpa [occursIn] using Or.inr (ih b h)

theorem occursIn_append_right {p : List Char} : ∀ (a b : List Char), occursIn p b = true →
    occursIn p (a ++ b) = true := by
  intro a
  induction a with
  | nil => intro b h; simpa using h
  | cons c a ih => intro b h; exact occursIn_cons_of_occursIn c (ih b h)

theorem occursIn_of_occursIn_append {p q : List Char} : ∀ s : List Char,
    occursIn (p ++ q) s = true → occursIn p s = true := by
  intro s
  induction s with
  | nil =>
    intro h
    cases p with
    | nil => rfl
    | cons x p =>
      cases q <;> simp [occursIn, isPre] at h
  | cons c s ih =>
    intro h
    simp only [occursIn, Bool.or_eq_true] at h ⊢
    rcases h with h | h
    · exact Or.inl (isPre_of_isPre_append _ h)
    · exact Or.inr (ih h)

theorem dropAppendOfLe : ∀ (i : Nat) (a b : List Char), i ≤ a.length →
    (a ++ b).drop i = a.drop i ++ b := by
  intro i
  induction i with
  | zero => intro a b _; rfl
  | succ i ih =>
    intro a b h
    cases a with
    | nil => simp at h
    | cons c a => simpa using ih a b (by simpa using h)

/-- Without any occurrence of the pattern, a replace pass is the
identity (whatever the fuel). -/
theorem replaceAllAux_of_no_occurrence {pat rep : List Char} : ∀ (fuel : Nat) (s : List Char),
    occursIn pat s = false → replaceAllAux pat rep fuel s = s := by
  intro fuel
  induction fuel with
  | zero => intro s _; cases s <;> rfl
  | succ fuel ih =>
    intro s h
    cases s with
    | nil => rfl
    | cons c s =>
      simp only [occursIn, Bool.or_eq_false_iff] at h
      simp only [replaceAllAux, h.1, Bool.false_eq_true, if_false]
      rw [ih s h.2]

/-- A replace pass on a text starting with the pattern substitutes it
and continues after it. -/
theorem replaceAllAux_hit {pat rep : List Char} (hp : pat ≠ []) (fuel : Nat)
    (rest : List Char) :
    replaceAllAux pat rep (fuel + 1) (pat ++ rest) = rep ++ replaceAllAux pat rep fuel rest := by
  cases pat with
  | nil => exact absurd rfl hp
  | cons c p =>
    show replaceAllAux (c :: p) rep (fuel + 1) (c :: (p ++ rest)) = _
    simp only [replaceAllAux]
    rw [if_pos (by exact isPre_append_self (c :: p) rest)]
    congr 1
    show replaceAllAux (c :: p) rep fuel (((c :: p) ++ rest).drop (c :: p).length) = _
    rw [List.drop_left]

/-- In the erased text, the literal `__TK0__` placeholder cannot match
strictly inside the `__TK`-free prefix that precedes it. -/
theorem noPreMatch (pre post : List Char)
    (hfree : occursIn (("__TK").data) pre = false) :
    ∀ i, i < pre.length →
      isPre (phChars 0) ((pre ++ (phChars 0 ++ post)).drop i) = false := by
  intro i hi
  cases hb : isPre (phChars 0) ((pre ++ (phChars 0 ++ post)).drop i) with
  | false => rfl
  | true =>
    exfalso
    rw [dropAppendOfLe i pre _ (Nat.le_of_lt hi)] at hb
    have hlen : 1 ≤ (pre.drop i).length := by
      simp only [List.length_drop]
      omega
    rcases Nat.lt_or_ge (pre.drop i).length 4 with hsmall | hbig
    · have hx : phChars 0 = (phChars 0).take (pre.drop i).length
          ++ (phChars 0).drop (pre.drop i).length := (List.take_append_drop _ _).symm
      nth_rewrite 1 [hx] at hb
      have hlentake : ((phChars 0).take (pre.drop i).length).length = (pre.drop i).length := by
        simp only [List.length_take]
        have h7 : (phChars 0).length = 7 := by decide
        omega
      obtain ⟨-, h2⟩ := isPre_append_split _ _ _ hlentake hb
      have h3 : isPre ((phChars 0).drop (pre.drop i).length) (phChars 0) = true := by
        refine isPre_of_append_left _ post ?_ h2
        simp only [List.length_drop]
        omega
      have hd : (pre.drop i).length = 1 ∨ (pre.drop i).length = 2
          ∨ (pre.drop i).length = 3 := by omega
      rcases hd with hd | hd | hd <;> rw [hd] at h3 <;> exact absurd h3 (by decide)
    · have hb4 : isPre (("__TK").data) (pre.drop i ++ (phChars 0 ++ post)) = true := by
        refine isPre_of_isPre_append (p := ("__TK").data) (q := (("0__").data)) _ ?_
        exact hb
      have hb5 : isPre (("__TK").data) (pre.drop i) = true :=
        isPre_of_append_left _ _ (by simpa using hbig) hb4
      exact absurd (occursIn_of_isPre_drop i pre hb5) (by simp [hfree])

/-- The key `str.replace` computation of the single-token round trip:
with a `__TK`-free prefix and suffix around a literal `__TK0__`
placeholder, the replacement rewrites exactly the placeholder. -/
theorem replaceAllAux_splice (tk post : List Char)
    (hpost : occursIn (("__TK").data) post = false) :
    ∀ (pre : List Char) (fuel : Nat), (pre ++ (phChars 0 ++ post)).length ≤ fuel →
      occursIn (("__TK").data) pre = false →
      replaceAllAux (phChars 0) tk fuel (pre ++ (phChars 0 ++ post))
        = pre ++ (tk ++ post) := by
  have hpost0 : occursIn (phChars 0) post = false := by
    cases h : occursIn (phChars 0) post with
    | false => rfl
    | true =>
      exfalso
      have : occursIn (("__TK").data) post = true :=
        occursIn_of_occursIn_append (p := ("__TK").data) (q := (("0__").data)) post h
      rw [this] at hpost
      exact Bool.noConfusion hpost
  intro pre
  induction pre with
  | nil =>
    intro fuel hfuel hfree
    cases fuel with
    | zero =>
      exfalso
      simp only [List.nil_append, List.length_append, Nat.le_zero] at hfuel
      have h7 : (phChars 0).length = 7 := by decide
      omega
    | succ f =>
      simp only [List.nil_append]
      rw [replaceAllAux_hit (by decide) f post]
      rw [replaceAllAux_of_no_occurrence f post hpost0]
  | cons c pre ih =>
    intro fuel hfuel hfree
    cases fuel with
    | zero =>
      exfalso
      simp only [List.length_append, List.length_cons, Nat.le_zero] at hfuel
      omega
    | succ f =>
      have hfree2 : occursIn (("__TK").data) pre = false := by
        simp only [occursIn, Bool.or_eq_false_iff] at hfree
        exact hfree.2
      have hnomatch := noPreMatch (c :: pre) post hfree 0 (by simp)
      simp only [List.drop_zero, List.cons_append] at hnomatch
      show replaceAllAux (phChars 0) tk (f + 1) (c :: (pre ++ (phChars 0 ++ post)))
        = c :: (pre ++ (tk ++ post))
      simp only [replaceAllAux]
      rw [if_neg (by simp [hnomatch])]
      have hfuel2 : (pre ++ (phChars 0 ++ post)).length ≤ f := by
        simp only [List.cons_append, List.length_cons] at hfuel
        omega
      rw [ih f hfuel2 hfree2]

/-- `replaceAll` form of the splice lemma. -/
theorem replaceAll_splice (tk pre post : List Char)
    (hfree : occursIn (("__TK").data) pre = false)
    (hpost : occursIn (("__TK").data) post = false) :
    replaceAll (phChars 0) tk (pre ++ (phChars 0 ++ post)) = pre ++ (tk ++ post) :=
  replaceAllAux_splice tk post hpost pre _ (Nat.le_refl _) hfree

/-- A pass that collects no match leaves the text unchanged. -/
theorem reSubTok_of_no_matches (m : Matcher) :
    ∀ (fuel : Nat) (prev : Option Char) (s : List Char) (toks : List String),
      collectMatches m fuel prev s = [] → (reSubTok m fuel prev s toks).1 = s
  | 0, prev, s, toks => by cases s <;> intro h <;> rfl
  | fuel + 1, prev, [], toks => by intro h; rfl
  | fuel + 1, prev, c :: s, toks => by
    intro h
    cases hm : m prev (c :: s) with
    | none =>
      simp only [collectMatches, hm] at h
      simp only [reSubTok, hm]
      simp only [reSubTok_of_no_matches m fuel (some c) s toks h]
    | some n =>
      simp only [collectMatches, hm] at h
      simp only [reSubTok, hm]
      by_cases hn : 0 < n
      · rw [if_pos hn] at h
        exact absurd h (by simp)
      · rw [if_neg hn] at h
        simp only [if_neg hn]
        simp only [reSubTok_of_no_matches m fuel (some c) s toks h]

/-- A pass that collects exactly one match splits the text around that
match and replaces it by the placeholder carrying the current token
count. -/
theorem reSubTok_single_match (m : Matcher) :
    ∀ (fuel : Nat) (prev : Option Char) (s : List Char) (toks : List String) (tk : String),
      s.length ≤ fuel → collectMatches m fuel prev s = [tk] →
      ∃ pre post, s = pre ++ (tk.data ++ post)
        ∧ (reSubTok m fuel prev s toks).1 = pre ++ (phChars toks.length ++ post)
  | 0, prev, s, toks, tk => by
    intro hfuel h
    have hs : s = [] := List.length_eq_zero.mp (Nat.le_zero.mp hfuel)
    subst hs
    simp [collectMatches] at h
  | fuel + 1, prev, [], toks, tk => by
    intro _ h
    simp [collectMatches] at h
  | fuel + 1, prev, c :: s, toks, tk => by
    intro hfuel h
    cases hm : m prev (c :: s) with
    | none =>
      simp only [collectMatches, hm] at h
      simp only [reSubTok, hm]
      obtain ⟨pre, post, h1, h2⟩ :=
        reSubTok_single_match m fuel (some c) s toks tk
          (by simpa using Nat.le_of_succ_le_succ hfuel) h
      refine ⟨c :: pre, post, by rw [List.cons_append, ← h1], ?_⟩
      simp only [h2, List.cons_append]
    | some n =>
      simp only [collectMatches, hm] at h
      simp only [reSubTok, hm]
      by_cases hn : 0 < n
      · rw [if_pos hn] at h
        simp only [List.cons.injEq] at h
        obtain ⟨htk, hrest⟩ := h
        simp only [if_pos hn]
        refine ⟨[], (c :: s).drop n, ?_, ?_⟩
        · simp only [List.nil_append, ← htk]
          exact (List.take_append_drop n (c :: s)).symm
        · simp only [List.nil_append]
          rw [reSubTok_of_no_matches m fuel _ _ _ hrest]
      · rw [if_neg hn] at h
        obtain ⟨pre, post, h1, h2⟩ :=
          reSubTok_single_match m fuel (some c) s toks tk
            (by simpa using Nat.le_of_succ_le_succ hfuel) h
        refine ⟨c :: pre, post, by rw [List.cons_append, ← h1], ?_⟩
        simp only [if_neg hn, h2, List.cons_append]

/-- Unfolding of one protection pass. -/
theorem protectPasses_cons (m : Matcher) (ms : List Matcher) (s : List Char)
    (toks : List String) :
    protectPasses (m :: ms) (s, toks)
      = protectPasses ms
          ((reSubTok m s.length none s toks).1, (reSubTok m s.length none s toks).2) := rfl

/-- Every pass only extends the token list. -/
theorem protectPasses_extend :
    ∀ (ms : List Matcher) (s : List Char) (toks : List String),
      ∃ ts, (protectPasses ms (s, toks)).2 = toks ++ ts
  | [], s, toks => ⟨[], by simp [protectPasses]⟩
  | m :: ms, s, toks => by
    rw [protectPasses_cons]
    obtain ⟨ts, hts⟩ := protectPasses_extend ms (reSubTok m s.length none s toks).1
      (reSubTok m s.length none s toks).2
    refine ⟨collectMatches m s.length none s ++ ts, ?_⟩
    rw [hts, reSubTok_tokens m s.length none s toks, List.append_assoc]

/-- When the whole protection run produces no new token, the text is
unchanged. -/
theorem protectPasses_no_tokens :
    ∀ (ms : List Matcher) (s : List Char) (toks : List String),
      (protectPasses ms (s, toks)).2 = toks → (protectPasses ms (s, toks)).1 = s
  | [], s, toks => fun _ => rfl
  | m :: ms, s, toks => by
    intro h
    rw [protectPasses_cons] at h ⊢
    obtain ⟨ts, hts⟩ := protectPasses_extend ms (reSubTok m s.length none s toks).1
      (reSubTok m s.length none s toks).2
    rw [hts, reSubTok_tokens m s.length none s toks, List.append_assoc] at h
    have hnil : collectMatches m s.length none s ++ ts = [] := by
      have hlen := congrArg List.length h
      simp only [List.length_append] at hlen
      refine List.length_eq_zero.mp ?_
      simp only [List.length_append]
      omega
    obtain ⟨hc, hts0⟩ := List.append_eq_nil.mp hnil
    have hsame : (reSubTok m s.length none s toks).1 = s :=
      reSubTok_of_no_matches m s.length none s toks hc
    have htoks : (reSubTok m s.length none s toks).2 = toks := by
      rw [reSubTok_tokens m s.length none s toks, hc, List.append_nil]
    rw [hsame, htoks]
    subst hts0
    rw [hsame, htoks, List.append_nil] at hts
    exact protectPasses_no_tokens ms s toks hts

/-- When the whole protection run (starting from an empty token list)
produces exactly one token, the original text splits around that token
and the resulting text carries the `__TK0__` placeholder at the split. -/
theorem protectPasses_single_token :
    ∀ (ms : List Matcher) (s : List Char) (tk : String),
      (protectPasses ms (s, [])).2 = [tk] →
      ∃ pre post, s = pre ++ (tk.data ++ post)
        ∧ (protectPasses ms (s, [])).1 = pre ++ (phChars 0 ++ post)
  | [], s, tk => by
    intro h
    simp [protectPasses] at h
  | m :: ms, s, tk => by
    intro h
    rw [protectPasses_cons] at h ⊢
    have hcoll : (reSubTok m s.length none s []).2 = collectMatches m s.length none s := by
      rw [reSubTok_tokens m s.length none s []]
      rfl
    cases hc : collectMatches m s.length none s with
    | nil =>
      have hsame : (reSubTok m s.length none s []).1 = s :=
        reSubTok_of_no_matches m s.length none s [] hc
      have hpair2 : (reSubTok m s.length none s []).2 = [] := by rw [hcoll, hc]
      rw [hsame, hpair2] at h ⊢
      exact protectPasses_single_token ms s tk h
    | cons tk1 rest =>
      obtain ⟨ts, hts⟩ := protectPasses_extend ms (reSubTok m s.length none s []).1
        (reSubTok m s.length none s []).2
      have hts2 := hts
      rw [hcoll, hc] at hts2
      rw [hcoll, hc, hts2] at h
      have hlen := congrArg List.length h
      simp only [List.length_append, List.length_cons, List.length_nil] at hlen
      have hrest : rest = [] := List.length_eq_zero.mp (show rest.length = 0 by omega)
      have hts0 : ts = [] := List.length_eq_zero.mp (show ts.length = 0 by omega)
      subst hrest
      subst hts0
      simp only [List.append_nil, List.cons.injEq, and_true] at h
      obtain ⟨pre, post, h1, h2⟩ :=
        reSubTok_single_match m s.length none s [] tk1 (Nat.le_refl _) hc
      have hone : (reSubTok m s.length none s []).2 = [tk1] := by rw [hcoll, hc]
      refine ⟨pre, post, by rw [h1, h], ?_⟩
      rw [hone, h2]
      show (protectPasses ms (pre ++ (phChars 0 ++ post), [tk1])).1 = pre ++ (phChars 0 ++ post)
      apply protectPasses_no_tokens
      have h2x : (reSubTok m s.length none s []).1 = pre ++ (phChars 0 ++ post) := h2
      rw [← h2x, hts2]
      simp

theorem strMk_data (s : String) : String.mk s.data = s := rfl

/-- The protect/restore round trip under the amended conditions: the
input has no `__TK` substring and protection produces at most one
token. -/
theorem protect_restore_id (text : String)
    (hfree : occursIn (("__TK").data) text.data = false)
    (htok : (protect_nontranslatable text).2.length ≤ 1) :
    restore_nontranslatable (protect_nontranslatable text).1
      (protect_nontranslatable text).2 = text := by
  by_cases htext : text = ("")
  · subst htext; rfl
  · have hne : text.isEmpty = false := by
      cases h : text.isEmpty with
      | false => rfl
      | true => exact absurd ((String.isEmpty_iff text).mp h) htext
    have hprot : protect_nontranslatable text
        = (String.mk (protectPasses NONTRANS_PATTERNS (text.data, [])).1,
           (protectPasses NONTRANS_PATTERNS (text.data, [])).2) := by
      simp only [protect_nontranslatable, hne, Bool.false_eq_true, if_false]
    rw [hprot] at htok ⊢
    cases htoks : (protectPasses NONTRANS_PATTERNS (text.data, [])).2 with
    | nil =>
      have hsame := protectPasses_no_tokens NONTRANS_PATTERNS text.data [] htoks
      show restore_nontranslatable
        (String.mk (protectPasses NONTRANS_PATTERNS (text.data, [])).1) [] = text
      rw [show restore_nontranslatable
          (String.mk (protectPasses NONTRANS_PATTERNS (text.data, [])).1) []
        = String.mk (protectPasses NONTRANS_PATTERNS (text.data, [])).1 from rfl, hsame]
    | cons tk rest =>
      rw [htoks] at htok
      have hrest : rest = [] := by
        simp only [List.length_cons] at htok
        exact List.length_eq_zero.mp (by omega)
      subst hrest
      show restore_nontranslatable
        (String.mk (protectPasses NONTRANS_PATTERNS (text.data, [])).1) [tk] = text
      obtain ⟨pre, post, h1, h2⟩ :=
        protectPasses_single_token NONTRANS_PATTERNS text.data tk htoks
      have hfree_pre : occursIn (("__TK").data) pre = false := by
        cases hp : occursIn (("__TK").data) pre with
        | false => rfl
        | true =>
          exfalso
          have := occursIn_append_left pre (tk.data ++ post) hp
          rw [← h1, hfree] at this
          exact Bool.noConfusion this
      have hfree_post : occursIn (("__TK").data) post = false := by
        cases hp : occursIn (("__TK").data) post with
        | false => rfl
        | true =>
          exfalso
          have h3 := occursIn_append_right tk.data post hp
          have h4 := occursIn_append_right pre (tk.data ++ post) h3
          rw [← h1, hfree] at h4
          exact Bool.noConfusion h4
      rw [show restore_nontranslatable
          (String.mk (protectPasses NONTRANS_PATTERNS (text.data, [])).1) [tk]
        = String.mk (replaceAll (phChars 0) tk.data
            (protectPasses NONTRANS_PATTERNS (text.data, [])).1) from rfl]
      rw [h2, replaceAll_splice tk.data pre post hfree_pre hfree_post, ← h1]


/-- C9 counterexample: the input `x__TK0%a%` contains no literal
`__TK<digits>__` substring, yet the protect/restore round trip corrupts
it: protection shields `%a%` as token 0, producing `x__TK0__TK0__`, and
restoration then matches the forged `__TK0__` spanning the input's
`__TK0` fragment and the placeholder's first underscores, yielding
`x%a%TK0__` instead of the input. -/
theorem claim_C9_counterexample :
    hasTokenLiteral (("x__TK0%a%").data) = false
    ∧ restore_nontranslatable (protect_nontranslatable ("x__TK0%a%")).1
        (protect_nontranslatable ("x__TK0%a%")).2 = ("x%a%TK0__")
    ∧ ("x%a%TK0__" : String) ≠ ("x__TK0%a%") :=
  ⟨by decide, rfl, by decide⟩

/-- C9 amended: absence of literal `__TK<digits>__` substrings is not
enough for the protect/restore round trip to be the identity — token
syntax can also be forged by fragments such as `__TK0` or `TK1__`
adjacent to protected spans.  A sufficient condition: when the input
contains no `__TK` substring at all and protection produces at most one
token, `restore_nontranslatable` after `protect_nontranslatable` is the
identity; and, as the claim states, inputs containing forged or literal
token fragments can be corrupted by restoration. -/
theorem claim_C9_amended (text : String)
    (hfree : occursIn (("__TK").data) text.data = false)
    (htok : (protect_nontranslatable text).2.length ≤ 1) :
    restore_nontranslatable (protect_nontranslatable text).1
      (protect_nontranslatable text).2 = text :=
  protect_restore_id text hfree htok

/-- Witness for the C9 amended theorem. -/
theorem claim_C9_amended_witness :
    restore_nontranslatable (protect_nontranslatable ("ligue 123 ok")).1
      (protect_nontranslatable ("ligue 123 ok")).2 = ("ligue 123 ok") :=
  claim_C9_amended ("ligue 123 ok") (by decide) (by decide)

/-- C4 counterexample: with the external call raising on every input,
`translate_text_unit` on `x__TK0%a%` does not return the original text —
the protect/restore round trip of the untranslated shielded text yields
`x%a%TK0__`. -/
theorem claim_C4_counterexample :
    translate_text_unit gFail ("x__TK0%a%") = ("x%a%TK0__")
    ∧ translate_text_unit gFail ("x__TK0%a%") ≠ ("x__TK0%a%") :=
  ⟨rfl, by decide⟩

/-- C4 amended: when the external translation call raises, the failure
stays local — `translate_text_unit` returns normally with the restored
untranslated shielded text, and that equals the original input whenever
the input contains no `__TK` substring and protection produced at most
one token (the protect-then-restore round trip is not the identity for
every input). -/
theorem claim_C4_amended (g : String → Option String) (text : String)
    (hg : g (protect_nontranslatable text).1 = none)
    (hfree : occursIn (("__TK").data) text.data = false)
    (htok : (protect_nontranslatable text).2.length ≤ 1) :
    translate_text_unit g text = text := by
  unfold translate_text_unit translate_text_unit_trace
  by_cases hblank : (pyStrip text).isEmpty
  · simp [hblank]
  · simp only [hblank, Bool.false_eq_true, if_false, hg]
    exact protect_restore_id text hfree htok

/-- Witness for the C4 amended theorem. -/
theorem claim_C4_amended_witness :
    translate_text_unit gFail ("total: 45 pts") = ("total: 45 pts") :=
  claim_C4_amended gFail ("total: 45 pts") rfl (by decide) (by decide)

/-! Lemmas on the whitespace-collapsing scanner. -/


theorem noTwoWs_cons_of_nonWs {c : Char} (hc : isPySpace c = false) {l : List Char}
    (hl : noTwoWs l = true) : noTwoWs (c :: l) = true := by
  cases l with
  | nil => rfl
  | cons d r => simp [noTwoWs, hc, hl]

theorem noTwoWs_cons_of_headNonWs {c : Char} {l : List Char}
    (hl : noTwoWs l = true) (hh : headNonWs l = true) : noTwoWs (c :: l) = true := by
  cases l with
  | nil => rfl
  | cons d r =>
    simp only [headNonWs] at hh
    simp [noTwoWs, hl]
    simp at hh
    simp [hh]

theorem collapseWsAux_noTwoWs : ∀ (s : List Char) (st : WsState),
    noTwoWs (collapseWsAux st s) = true
      ∧ (st = WsState.run → headNonWs (collapseWsAux st s) = true)
  | [], .norm => ⟨rfl, fun h => by cases h⟩
  | [], .pend w => ⟨rfl, fun h => by cases h⟩
  | [], .run => ⟨rfl, fun _ => rfl⟩
  | c :: r, .norm => by
    by_cases hc : isPySpace c
    · simp only [collapseWsAux, hc, if_true]
      exact ⟨(collapseWsAux_noTwoWs r (.pend c)).1, fun h => by cases h⟩
    · simp only [collapseWsAux, hc, Bool.false_eq_true, if_false]
      exact ⟨noTwoWs_cons_of_nonWs (by simpa using hc)
        (collapseWsAux_noTwoWs r .norm).1, fun h => by cases h⟩
  | c :: r, .pend w => by
    by_cases hc : isPySpace c
    · simp only [collapseWsAux, hc, if_true]
      refine ⟨noTwoWs_cons_of_headNonWs (collapseWsAux_noTwoWs r .run).1
        ((collapseWsAux_noTwoWs r .run).2 rfl), fun h => by cases h⟩
    · simp only [collapseWsAux, hc, Bool.false_eq_true, if_false]
      refine ⟨?_, fun h => by cases h⟩
      have h1 := noTwoWs_cons_of_nonWs (by simpa using hc) (collapseWsAux_noTwoWs r .norm).1
      exact noTwoWs_cons_of_headNonWs h1 (by simpa [headNonWs] using hc)
  | c :: r, .run => by
    by_cases hc : isPySpace c
    · simp only [collapseWsAux, hc, if_true]
      exact ⟨(collapseWsAux_noTwoWs r .run).1, fun _ => (collapseWsAux_noTwoWs r .run).2 rfl⟩
    · simp only [collapseWsAux, hc, Bool.false_eq_true, if_false]
      refine ⟨noTwoWs_cons_of_nonWs (by simpa using hc)
        (collapseWsAux_noTwoWs r .norm).1, fun _ => by simpa [headNonWs] using hc⟩

theorem collapseWsAux_of_noTwoWs : ∀ s : List Char, noTwoWs s = true →
    collapseWsAux WsState.norm s = s
  | [] => fun _ => rfl
  | [c] => by
    by_cases hc : isPySpace c
    · intro _; simp [collapseWsAux, hc]
    · intro _; simp [collapseWsAux, hc]
  | c :: d :: r => by
    intro h
    have h0 : (!(isPySpace c && isPySpace d)) = true ∧ noTwoWs (d :: r) = true := by
      simpa [noTwoWs, Bool.and_eq_true] using h
    by_cases hc : isPySpace c
    · have hd : isPySpace d = false := by
        have h1 := h0.1
        rw [hc] at h1
        simpa using h1
      have hr : noTwoWs (d :: r) = true := h0.2
      have hr2 : noTwoWs r = true := by
        cases r with
        | nil => rfl
        | cons e r2 =>
          have := hr
          simp only [noTwoWs, Bool.and_eq_true] at this
          exact this.2
      simp only [collapseWsAux, hc, if_true, hd, Bool.false_eq_true, if_false]
      rw [collapseWsAux_of_noTwoWs r hr2]
    · simp only [collapseWsAux, hc, Bool.false_eq_true, if_false]
      have hrec := collapseWsAux_of_noTwoWs (d :: r) h0.2
      simp only [collapseWsAux] at hrec
      rw [hrec]

theorem collapseWsAux_norm_cons (c : Char) (r : List Char) :
    collapseWsAux WsState.norm (c :: r)
      = if isPySpace c then collapseWsAux (WsState.pend c) r
        else c :: collapseWsAux WsState.norm r := rfl

theorem collapseWsAux_pend_cons (w c : Char) (r : List Char) :
    collapseWsAux (WsState.pend w) (c :: r)
      = if isPySpace c then ' ' :: collapseWsAux WsState.run r
        else w :: c :: collapseWsAux WsState.norm r := rfl

theorem collapseWsAux_run_cons (c : Char) (r : List Char) :
    collapseWsAux WsState.run (c :: r)
      = if isPySpace c then collapseWsAux WsState.run r
        else c :: collapseWsAux WsState.norm r := rfl

theorem getLast?_cons_ne {α : Type} {a : α} {l : List α} (h : l ≠ []) :
    (a :: l).getLast? = l.getLast? := by
  cases l with
  | nil => exact absurd rfl h
  | cons b r => rfl

theorem ne_nil_of_getLast?_eq_some {α : Type} {l : List α} {c : α}
    (h : l.getLast? = some c) : l ≠ [] := by
  cases l with
  | nil => simp at h
  | cons b r => simp

theorem collapseWsAux_pend_ne (w : Char) : ∀ r : List Char,
    collapseWsAux (WsState.pend w) r ≠ []
  | [] => by simp [collapseWsAux]
  | c :: r => by
    by_cases hc : isPySpace c <;> simp [collapseWsAux, hc]

theorem collapseWsAux_norm_cons_ne (c : Char) (r : List Char) :
    collapseWsAux WsState.norm (c :: r) ≠ [] := by
  by_cases hc : isPySpace c
  · simp only [collapseWsAux, hc, if_true]
    exact collapseWsAux_pend_ne c r
  · simp [collapseWsAux, hc]

/-- A non-whitespace final character survives collapsing in place. -/
theorem collapseWsAux_last_nonWs : ∀ (s : List Char) (st : WsState) (c : Char),
    s.getLast? = some c → isPySpace c = false →
    (collapseWsAux st s).getLast? = some c
  | [], st, c => by intro h _; simp at h
  | [a], st, c => by
    intro h hws
    have ha : a = c := by simpa using h
    subst ha
    cases st with
    | norm => simp [collapseWsAux, hws]
    | pend w => simp [collapseWsAux, hws]
    | run => simp [collapseWsAux, hws]
  | a :: b :: r, st, c => by
    intro h hws
    have htail : (b :: r).getLast? = some c := by
      rw [← getLast?_cons_ne (by simp)]
      exact h
    have hne : (collapseWsAux WsState.norm (b :: r)) ≠ [] := collapseWsAux_norm_cons_ne b r
    cases st with
    | norm =>
      by_cases ha : isPySpace a
      · rw [collapseWsAux_norm_cons, if_pos ha]
        exact collapseWsAux_last_nonWs (b :: r) (.pend a) c htail hws
      · rw [collapseWsAux_norm_cons, if_neg ha, getLast?_cons_ne hne]
        exact collapseWsAux_last_nonWs (b :: r) .norm c htail hws
    | pend w =>
      by_cases ha : isPySpace a
      · have hrec := collapseWsAux_last_nonWs (b :: r) .run c htail hws
        rw [collapseWsAux_pend_cons, if_pos ha,
          getLast?_cons_ne (ne_nil_of_getLast?_eq_some hrec)]
        exact hrec
      · rw [collapseWsAux_pend_cons, if_neg ha, getLast?_cons_ne (by simp [hne]),
          getLast?_cons_ne hne]
        exact collapseWsAux_last_nonWs (b :: r) .norm c htail hws
    | run =>
      by_cases ha : isPySpace a
      · rw [collapseWsAux_run_cons, if_pos ha]
        exact collapseWsAux_last_nonWs (b :: r) .run c htail hws
      · rw [collapseWsAux_run_cons, if_neg ha, getLast?_cons_ne hne]
        exact collapseWsAux_last_nonWs (b :: r) .norm c htail hws

/-- A whitespace final character leaves the collapsed text ending in
whitespace (or, in the run state, possibly empty). -/
theorem collapseWsAux_last_ws : ∀ (s : List Char) (c : Char),
    s.getLast? = some c → isPySpace c = true →
    ((∃ d, (collapseWsAux WsState.norm s).getLast? = some d ∧ isPySpace d = true)
     ∧ (∀ w, ∃ d, (collapseWsAux (WsState.pend w) s).getLast? = some d ∧ isPySpace d = true)
     ∧ ((∃ d, (collapseWsAux WsState.run s).getLast? = some d ∧ isPySpace d = true)
        ∨ collapseWsAux WsState.run s = []))
  | [], c => by intro h _; simp at h
  | [a], c => by
    intro h hws
    have ha : a = c := by simpa using h
    subst ha
    refine ⟨⟨a, ?_, hws⟩, fun w => ⟨' ', ?_, by decide⟩, Or.inr ?_⟩
    · simp [collapseWsAux, hws]
    · simp [collapseWsAux, hws]
    · simp [collapseWsAux, hws]
  | a :: b :: r, c => by
    intro h hws
    have htail : (b :: r).getLast? = some c := by
      rw [← getLast?_cons_ne (by simp)]
      exact h
    obtain ⟨hn, hp, hr⟩ := collapseWsAux_last_ws (b :: r) c htail hws
    have hne : (collapseWsAux WsState.norm (b :: r)) ≠ [] := collapseWsAux_norm_cons_ne b r
    refine ⟨?_, ?_, ?_⟩
    · by_cases ha : isPySpace a
      · rw [collapseWsAux_norm_cons, if_pos ha]
        exact hp a
      · rw [collapseWsAux_norm_cons, if_neg ha]
        obtain ⟨d, hd1, hd2⟩ := hn
        exact ⟨d, by rw [getLast?_cons_ne hne]; exact hd1, hd2⟩
    · intro w
      by_cases ha : isPySpace a
      · rw [collapseWsAux_pend_cons, if_pos ha]
        rcases hr with ⟨d, hd1, hd2⟩ | hnil
        · exact ⟨d, by rw [getLast?_cons_ne (ne_nil_of_getLast?_eq_some hd1)]; exact hd1, hd2⟩
        · exact ⟨' ', by rw [hnil]; rfl, by decide⟩
      · rw [collapseWsAux_pend_cons, if_neg ha]
        obtain ⟨d, hd1, hd2⟩ := hn
        exact ⟨d, by rw [getLast?_cons_ne (by simp [hne]), getLast?_cons_ne hne]; exact hd1, hd2⟩
    · by_cases ha : isPySpace a
      · rw [collapseWsAux_run_cons, if_pos ha]
        exact hr
      · rw [collapseWsAux_run_cons, if_neg ha]
        obtain ⟨d, hd1, hd2⟩ := hn
        exact Or.inl ⟨d, by rw [getLast?_cons_ne hne]; exact hd1, hd2⟩

/-! String-level facts used by the spacing idempotence argument. -/

theorem collapseWs_data (t : String) :
    (collapseWs t).data = collapseWsAux WsState.norm t.data := rfl

theorem append_data (a b : String) : (a ++ b).data = a.data ++ b.data := rfl

theorem isEmpty_iff_data (s : String) : s.isEmpty = true ↔ s.data = [] := by
  rw [String.isEmpty_iff]
  constructor
  · intro h
    subst h
    rfl
  · intro h
    cases s with
    | mk d =>
      have hd : d = [] := h
      rw [hd]

theorem collapseWs_idem (t : String) : collapseWs (collapseWs t) = collapseWs t := by
  show String.mk (collapseWsAux WsState.norm (collapseWs t).data) = collapseWs t
  rw [collapseWs_data, collapseWsAux_of_noTwoWs _ (collapseWsAux_noTwoWs t.data .norm).1]
  rfl

theorem collapseWs_isEmpty (t : String) (h : t.isEmpty = false) :
    (collapseWs t).isEmpty = false := by
  cases hd : t.data with
  | nil => exact absurd ((isEmpty_iff_data t).mpr hd) (by simp [h])
  | cons c r =>
    cases he : (collapseWs t).isEmpty with
    | false => rfl
    | true =>
      exfalso
      have := (isEmpty_iff_data _).mp he
      rw [collapseWs_data, hd] at this
      exact collapseWsAux_norm_cons_ne c r this

theorem wsChar_class {d : Char} (h : isPySpace d = true) :
    d.isAlphanum = false
    ∧ (d = ',' || d = '.' || d = ';' || d = ':' || d = '!' || d = '?') = false := by
  have h6 : d = ' ' ∨ d = '\t' ∨ d = '\n' ∨ d = '\r' ∨ d = '\x0b' ∨ d = '\x0c' := by
    simpa [isPySpace, or_assoc] using h
  rcases h6 with rfl | rfl | rfl | rfl | rfl | rfl <;> exact ⟨by decide, by decide⟩

theorem needs_space_of_last_ws (a b : String) (d : Char)
    (h : a.data.getLast? = some d) (hws : isPySpace d = true) :
    needs_space a b = false := by
  unfold needs_space
  rw [h]
  cases b.data.head? with
  | none => rfl
  | some y =>
    obtain ⟨h1, h2⟩ := wsChar_class hws
    simp [h1, h2]

theorem needs_space_empty_right (a : String) : needs_space a ("") = false := by
  unfold needs_space
  cases a.data.getLast? <;> rfl

theorem needs_space_empty_left (b : String) : needs_space ("") b = false := rfl

/-- Collapsing does not change whether a trailing space is needed. -/
theorem needs_space_collapse (t u : String) (h : t.data ≠ []) :
    needs_space (collapseWs t) u = needs_space t u := by
  cases hl : t.data.getLast? with
  | none => exact absurd (by simpa using hl) h
  | some x =>
    by_cases hws : isPySpace x
    · obtain ⟨d, hd1, hd2⟩ := (collapseWsAux_last_ws t.data x hl hws).1
      rw [needs_space_of_last_ws t u x hl hws,
        needs_space_of_last_ws (collapseWs t) u d (by rw [collapseWs_data]; exact hd1) hd2]
    · have hx := collapseWsAux_last_nonWs t.data .norm x hl (by simpa using hws)
      unfold needs_space
      rw [hl, show (collapseWs t).data.getLast? = some x by rw [collapseWs_data]; exact hx]

theorem lastWs_append_space (x : String) :
    (x ++ (" ")).data.getLast? = some ' ' := by
  rw [append_data]
  show (x.data ++ [' ']).getLast? = some ' '
  rw [List.getLast?_concat]

theorem needs_space_collapse_append_space (x u : String) :
    needs_space (collapseWs (x ++ (" "))) u = false := by
  obtain ⟨d, hd1, hd2⟩ :=
    (collapseWsAux_last_ws (x ++ (" ")).data ' ' (lastWs_append_space x) (by decide)).1
  exact needs_space_of_last_ws _ u d (by rw [collapseWs_data]; exact hd1) hd2

theorem startsWith_collapseWs (t : String) (h : startsWithSpaceNlTab t = true) :
    startsWithSpaceNlTab (collapseWs t) = true := by
  unfold startsWithSpaceNlTab at h ⊢
  rw [collapseWs_data]
  cases hd : t.data with
  | nil => rw [hd] at h; exact absurd h (by simp)
  | cons c r =>
    rw [hd] at h
    have hcs : (c = ' ' || c = '\n' || c = '\t') = true := h
    have hc : isPySpace c = true := by
      have h3 : c = ' ' ∨ c = '\n' ∨ c = '\t' := by
        simpa [or_assoc] using hcs
      rcases h3 with rfl | rfl | rfl <;> rfl
    rw [collapseWsAux_norm_cons, if_pos hc]
    cases r with
    | nil => exact hcs
    | cons d r2 =>
      rw [collapseWsAux_pend_cons]
      by_cases hdws : isPySpace d
      · rw [if_pos hdws]; rfl
      · rw [if_neg hdws]
        exact hcs

theorem startsWith_append (x u : String) (h : x.data ≠ []) :
    startsWithSpaceNlTab (x ++ u) = startsWithSpaceNlTab x := by
  unfold startsWithSpaceNlTab
  rw [append_data]
  cases hx : x.data with
  | nil => exact absurd hx h
  | cons c r => rfl

theorem isEmpty_false_iff_data (s : String) : s.isEmpty = false ↔ s.data ≠ [] := by
  constructor
  · intro h hd
    rw [(isEmpty_iff_data s).mpr hd] at h
    cases h
  · intro h
    cases he : s.isEmpty with
    | false => rfl
    | true => exact absurd ((isEmpty_iff_data s).mp he) h

theorem str_of_data_nil {s : String} (h : s.data = []) : s = ("") :=
  (String.isEmpty_iff s).mp ((isEmpty_iff_data s).mpr h)

theorem safe_str_of_falsy {x : Option String} (h : optTruthy x = false) :
    safe_str x = ("") := by
  cases x with
  | none => rfl
  | some s =>
    simp only [optTruthy, pyTruthy, Bool.not_eq_false'] at h
    exact str_of_data_nil ((isEmpty_iff_data s).mp h)

theorem strAppend_space_isEmpty (x : String) : (x ++ (" ")).isEmpty = false := by
  rw [isEmpty_false_iff_data, append_data]
  intro h
  have := congrArg List.length h
  simp at this

theorem strSpace_append_starts (t0 : String) :
    startsWithSpaceNlTab ((" ") ++ t0) = true := rfl

theorem strSpacePrepend_isEmpty (t0 : String) : ((" ") ++ t0).isEmpty = false := by
  rw [isEmpty_false_iff_data, append_data]
  simp

theorem needs_space_ne_left {a b : String} (h : needs_space a b = true) : a.data ≠ [] := by
  intro hd
  unfold needs_space at h
  rw [hd] at h
  cases hb : b.data.head? <;> rw [hb] at h <;> cases h

theorem Elem.withTail_text (e : Elem) (x : Option String) : (e.withTail x).text = e.text := by
  cases e; rfl

theorem Elem.withTail_tail (e : Elem) (x : Option String) : (e.withTail x).tail = x := by
  cases e; rfl

theorem Elem.withTail_withTail (e : Elem) (x y : Option String) :
    (e.withTail x).withTail y = e.withTail y := by
  cases e; rfl

theorem Elem.withTail_self (e : Elem) : e.withTail e.tail = e := by
  cases e; rfl

theorem Elem.withTail_tag (e : Elem) (x : Option String) : (e.withTail x).tag = e.tag := by
  cases e; rfl

/-- The nxt-block only rewrites the current child's tail, by `nTailFun`. -/
theorem spacingNextStep_eq (c : Elem) (nt : Option String) :
    spacingNextStep c nt = c.withTail (nTailFun c.text c.tail nt) := by
  unfold spacingNextStep nTailFun
  by_cases h1 : (optTruthy c.text && optTruthy nt) = true
  · simp only [h1, if_true]
    by_cases h2 : needs_space (safe_str c.text) (safe_str nt) = true
    · simp only [h2, if_true]
    · simp only [h2, Bool.false_eq_true, if_false, Elem.withTail_self]
  · simp only [h1, Bool.false_eq_true, if_false]
    by_cases h3 : (safe_str c.tail).isEmpty = true
    · simp only [h3, if_true]
    · simp only [h3, Bool.false_eq_true, if_false]

/-- The prev-block only rewrites the previous child's tail, by
`pTailFun`. -/
theorem spacingPrevStep_fst (p n : Elem) :
    (spacingPrevStep p n).1 = p.withTail (pTailFun p.tail n.text) := by
  unfold spacingPrevStep pTailFun
  by_cases h1 : (optTruthy p.tail && optTruthy n.text) = true
  · simp only [h1, if_true]
  · simp only [h1, Bool.false_eq_true, if_false]
    by_cases h2 : (optTruthy p.tail && !optTruthy n.text) = true
    · simp only [h2, if_true]
    · simp only [h2, Bool.false_eq_true, if_false]
      by_cases h3 : (!optTruthy p.tail && optTruthy n.text) = true
      · simp only [h3, if_true]
        by_cases h4 : needs_space (safe_str p.text) (safe_str n.text) = true
        · simp only [h4, if_true, Elem.withTail_self]
        · simp only [h4, Bool.false_eq_true, if_false, Elem.withTail_self]
      · simp only [h3, Bool.false_eq_true, if_false, Elem.withTail_self]

/-- In the composite sweep the prev-block never rewrites the current
child's text: its dangerous branch would require a needed space between
two truthy texts, but then the nxt-block has just made the previous
tail truthy, disabling that branch. -/
theorem spacingPrevStep_snd_dead (c n : Elem) :
    (spacingPrevStep (spacingNextStep c n.text) n).2 = n := by
  rw [spacingNextStep_eq]
  unfold spacingPrevStep
  by_cases h1 : (optTruthy (c.withTail (nTailFun c.text c.tail n.text)).tail
      && optTruthy n.text) = true
  · simp only [h1, if_true]
  · simp only [h1, Bool.false_eq_true, if_false]
    by_cases h2 : (optTruthy (c.withTail (nTailFun c.text c.tail n.text)).tail
        && !optTruthy n.text) = true
    · simp only [h2, if_true]
    · simp only [h2, Bool.false_eq_true, if_false]
      by_cases h3 : (!optTruthy (c.withTail (nTailFun c.text c.tail n.text)).tail
          && optTruthy n.text) = true
      · simp only [h3, if_true]
        by_cases h4 : needs_space (safe_str (c.withTail (nTailFun c.text c.tail n.text)).text)
            (safe_str n.text) = true
        · exfalso
          rw [Elem.withTail_tail] at h1 h3
          rw [Elem.withTail_text] at h4
          simp only [Bool.and_eq_true, Bool.not_eq_eq_eq_not, Bool.not_true] at h3
          have hnt : optTruthy n.text = true := h3.2
          have hct : optTruthy c.text = true := by
            cases hc : c.text with
            | none => exact absurd (needs_space_ne_left h4) (by simp [hc, safe_str])
            | some s =>
              simp only [optTruthy, pyTruthy, Bool.not_eq_false']
              have := needs_space_ne_left h4
              rw [hc] at this
              simp only [safe_str] at this
              simp only [Bool.not_eq_true']
              exact (isEmpty_false_iff_data s).mpr this
          have htail : optTruthy (nTailFun c.text c.tail n.text) = true := by
            unfold nTailFun
            simp only [hct, hnt, Bool.and_self, if_true, h4]
            have ht1 : ∀ t1 : String, t1.isEmpty = false →
                optTruthy (some (collapseWs t1)) = true := by
              intro t1 h
              simp only [optTruthy, pyTruthy, collapseWs_isEmpty t1 h, Bool.not_false]
            by_cases he : (safe_str c.tail).isEmpty = true
            · simp only [he, if_true]
              exact ht1 (" ") (by decide)
            · simp only [he, Bool.false_eq_true, if_false]
              by_cases hs : startsWithSpaceNlTab (safe_str c.tail) = true
              · simp only [hs, Bool.not_true, Bool.false_eq_true, if_false]
                exact ht1 _ (by simpa using he)
              · simp only [Bool.not_eq_true'] at hs
                simp only [hs, Bool.not_false, if_true]
                exact ht1 _ (strSpacePrepend_isEmpty _)
          rw [htail] at h3
          simp at h3
        · simp only [h4, Bool.false_eq_true, if_false]
      · simp only [h3, Bool.false_eq_true, if_false]


theorem mkT1_isEmpty (t0 : String) : (mkT1 t0).isEmpty = false := by
  unfold mkT1
  by_cases h1 : t0.isEmpty = true
  · simp only [h1, if_true]; decide
  · simp only [h1, Bool.false_eq_true, if_false]
    by_cases h2 : startsWithSpaceNlTab t0 = true
    · simp only [h2, Bool.not_true, Bool.false_eq_true, if_false]
      simpa using h1
    · simp only [Bool.not_eq_true'] at h2
      simp only [h2, Bool.not_false, if_true]
      exact strSpacePrepend_isEmpty t0

theorem mkT1_starts (t0 : String) : startsWithSpaceNlTab (mkT1 t0) = true := by
  unfold mkT1
  by_cases h1 : t0.isEmpty = true
  · simp only [h1, if_true]; decide
  · simp only [h1, Bool.false_eq_true, if_false]
    by_cases h2 : startsWithSpaceNlTab t0 = true
    · simp only [h2, Bool.not_true, Bool.false_eq_true, if_false]
    · simp only [Bool.not_eq_true'] at h2
      simp only [h2, Bool.not_false, if_true]
      exact strSpace_append_starts t0

theorem mkT1_of_good (t0 : String) (h1 : t0.isEmpty = false)
    (h2 : startsWithSpaceNlTab t0 = true) : mkT1 t0 = t0 := by
  unfold mkT1
  simp only [h1, Bool.false_eq_true, if_false, h2, Bool.not_true, if_false]

theorem safe_str_some (s : String) : safe_str (some s) = s := rfl

theorem optTruthy_some_of_ne (s : String) (h : s.isEmpty = false) :
    optTruthy (some s) = true := by
  simp [optTruthy, pyTruthy, h]

theorem safe_str_truthy {l0 : Option String} (h : optTruthy l0 = true) :
    (safe_str l0).isEmpty = false := by
  cases l0 with
  | none => cases h
  | some s => simpa [optTruthy, pyTruthy] using h

theorem nTailFun_eval1 {ct nt : Option String} (l0 : Option String)
    (hA : (optTruthy ct && optTruthy nt) = true)
    (hNS : needs_space (safe_str ct) (safe_str nt) = true) :
    nTailFun ct l0 nt = some (collapseWs (mkT1 (safe_str l0))) := by
  unfold nTailFun mkT1
  simp only [hA, if_true, hNS]

theorem nTailFun_eval2 {ct nt : Option String} (l0 : Option String)
    (hA : (optTruthy ct && optTruthy nt) = true)
    (hNS : needs_space (safe_str ct) (safe_str nt) = false) :
    nTailFun ct l0 nt = l0 := by
  unfold nTailFun
  simp only [hA, if_true, hNS, Bool.false_eq_true, if_false]

theorem nTailFun_eval3 {ct nt : Option String} (l0 : Option String)
    (hA : (optTruthy ct && optTruthy nt) = false) :
    nTailFun ct l0 nt =
      if (safe_str l0).isEmpty then some (safe_str l0)
      else some (collapseWs (safe_str l0)) := by
  have hcond : needs_space (safe_str ct) (safe_str nt) = false := by
    by_cases hct : optTruthy ct = true
    · have hnt : optTruthy nt = false := by
        cases hv : optTruthy nt
        · rfl
        · rw [hct, hv] at hA
          exact absurd hA (by decide)
      cases nt with
      | none => exact needs_space_empty_right _
      | some s =>
        have hs : s.isEmpty = true := by simpa [optTruthy, pyTruthy] using hnt
        have hs2 : s = ("") := str_of_data_nil ((isEmpty_iff_data s).mp hs)
        rw [safe_str_some, hs2]
        exact needs_space_empty_right _
    · have hctf : optTruthy ct = false := by simpa using hct
      rw [safe_str_of_falsy hctf]
      exact needs_space_empty_left _
  unfold nTailFun
  cases nt with
  | none =>
    have hc2 : needs_space (safe_str ct) ("") = false := hcond
    simp only [hA, Bool.false_eq_true, if_false, hc2, Bool.false_and]
  | some s =>
    have hc2 : needs_space (safe_str ct) s = false := hcond
    simp only [hA, Bool.false_eq_true, if_false, hc2, Bool.false_and]

theorem pTailFun_eval1 {l1 ct2 : Option String} (h1 : optTruthy l1 = true)
    (h2 : optTruthy ct2 = true) :
    pTailFun l1 ct2
      = some (collapseWs (if needs_space (safe_str l1) (safe_str ct2)
          then safe_str l1 ++ (" ") else safe_str l1)) := by
  unfold pTailFun
  simp only [h1, h2, Bool.and_self, if_true]

theorem pTailFun_eval2 {l1 ct2 : Option String} (h1 : optTruthy l1 = true)
    (h2 : optTruthy ct2 = false) :
    pTailFun l1 ct2 = some (collapseWs (safe_str l1)) := by
  unfold pTailFun
  simp only [h1, h2, Bool.and_false, Bool.false_eq_true, if_false, Bool.not_false,
    Bool.and_true, if_true, Bool.and_self]

theorem pTailFun_eval3 (l1 ct2 : Option String)
    (h1 : optTruthy l1 = false) :
    pTailFun l1 ct2 = l1 := by
  unfold pTailFun
  simp only [h1, Bool.false_and, Bool.false_eq_true, if_false]

/-- One sweep of the per-boundary tail update is idempotent. -/
theorem spacingTailFun_idem (ct l0 nt : Option String) :
    spacingTailFun ct (spacingTailFun ct l0 nt) nt = spacingTailFun ct l0 nt := by
  unfold spacingTailFun
  by_cases hA : (optTruthy ct && optTruthy nt) = true
  · have hnt : optTruthy nt = true := by
      have h2 := hA
      rw [Bool.and_eq_true] at h2
      exact h2.2
    by_cases hNS : needs_space (safe_str ct) (safe_str nt) = true
    · rw [nTailFun_eval1 l0 hA hNS]
      have ht1e : (mkT1 (safe_str l0)).isEmpty = false := mkT1_isEmpty _
      have ht1s : startsWithSpaceNlTab (mkT1 (safe_str l0)) = true := mkT1_starts _
      have hc1 : (collapseWs (mkT1 (safe_str l0))).isEmpty = false :=
        collapseWs_isEmpty _ ht1e
      rw [pTailFun_eval1 (optTruthy_some_of_ne _ hc1) hnt]
      simp only [safe_str_some]
      by_cases hNS2 : needs_space (collapseWs (mkT1 (safe_str l0))) (safe_str nt) = true
      · rw [if_pos hNS2]
        have hVe : (collapseWs (collapseWs (mkT1 (safe_str l0)) ++ (" "))).isEmpty = false :=
          collapseWs_isEmpty _ (strAppend_space_isEmpty _)
        have hVs : startsWithSpaceNlTab
            (collapseWs (collapseWs (mkT1 (safe_str l0)) ++ (" "))) = true := by
          refine startsWith_collapseWs _ ?_
          rw [startsWith_append _ _ ((isEmpty_false_iff_data _).mp hc1)]
          exact startsWith_collapseWs _ ht1s
        rw [nTailFun_eval1 _ hA hNS]
        simp only [safe_str_some]
        rw [mkT1_of_good _ hVe hVs, collapseWs_idem]
        rw [pTailFun_eval1 (optTruthy_some_of_ne _ hVe) hnt]
        simp only [safe_str_some]
        rw [if_neg (by rw [needs_space_collapse_append_space]; exact Bool.noConfusion),
          collapseWs_idem]
      · rw [if_neg hNS2, collapseWs_idem]
        rw [nTailFun_eval1 _ hA hNS]
        simp only [safe_str_some]
        rw [mkT1_of_good _ hc1 (startsWith_collapseWs _ ht1s), collapseWs_idem]
        rw [pTailFun_eval1 (optTruthy_some_of_ne _ hc1) hnt]
        simp only [safe_str_some]
        rw [if_neg hNS2]
        rw [collapseWs_idem]
    · have hNSf : needs_space (safe_str ct) (safe_str nt) = false := by
        simpa using hNS
      rw [nTailFun_eval2 l0 hA hNSf]
      by_cases hl0 : optTruthy l0 = true
      · rw [pTailFun_eval1 hl0 hnt]
        have hx : (safe_str l0).isEmpty = false := safe_str_truthy hl0
        by_cases hNS3 : needs_space (safe_str l0) (safe_str nt) = true
        · rw [if_pos hNS3]
          have hVe : (collapseWs (safe_str l0 ++ (" "))).isEmpty = false :=
            collapseWs_isEmpty _ (strAppend_space_isEmpty _)
          rw [nTailFun_eval2 _ hA hNSf]
          rw [pTailFun_eval1 (optTruthy_some_of_ne _ hVe) hnt]
          simp only [safe_str_some]
          rw [if_neg (by rw [needs_space_collapse_append_space]; exact Bool.noConfusion),
            collapseWs_idem]
        · rw [if_neg hNS3]
          have hVe : (collapseWs (safe_str l0)).isEmpty = false :=
            collapseWs_isEmpty _ hx
          rw [nTailFun_eval2 _ hA hNSf]
          rw [pTailFun_eval1 (optTruthy_some_of_ne _ hVe) hnt]
          simp only [safe_str_some]
          rw [if_neg (by
            rw [needs_space_collapse _ _ ((isEmpty_false_iff_data _).mp hx)]
            exact hNS3), collapseWs_idem]
      · have hl0f : optTruthy l0 = false := by simpa using hl0
        rw [pTailFun_eval3 l0 nt hl0f, nTailFun_eval2 l0 hA hNSf, pTailFun_eval3 l0 nt hl0f]
  · have hAf : (optTruthy ct && optTruthy nt) = false := by simpa using hA
    rw [nTailFun_eval3 l0 hAf]
    by_cases ht0 : (safe_str l0).isEmpty = true
    · rw [if_pos ht0]
      have h0 : safe_str l0 = ("") := str_of_data_nil ((isEmpty_iff_data _).mp ht0)
      rw [h0]
      rw [pTailFun_eval3 (some ("")) nt (by decide), nTailFun_eval3 _ hAf]
      simp only [safe_str_some]
      rw [if_pos (by decide), pTailFun_eval3 (some ("")) nt (by decide)]
    · rw [if_neg ht0]
      have hx : (safe_str l0).isEmpty = false := by simpa using ht0
      have hW : (collapseWs (safe_str l0)).isEmpty = false := collapseWs_isEmpty _ hx
      by_cases hnt2 : optTruthy nt = true
      · rw [pTailFun_eval1 (optTruthy_some_of_ne _ hW) hnt2]
        simp only [safe_str_some]
        by_cases hNS4 : needs_space (collapseWs (safe_str l0)) (safe_str nt) = true
        · rw [if_pos hNS4]
          have hVe : (collapseWs (collapseWs (safe_str l0) ++ (" "))).isEmpty = false :=
            collapseWs_isEmpty _ (strAppend_space_isEmpty _)
          rw [nTailFun_eval3 _ hAf]
          simp only [safe_str_some]
          rw [if_neg (by rw [hVe]; exact Bool.noConfusion), collapseWs_idem]
          rw [pTailFun_eval1 (optTruthy_some_of_ne _ hVe) hnt2]
          simp only [safe_str_some]
          rw [if_neg (by rw [needs_space_collapse_append_space]; exact Bool.noConfusion),
            collapseWs_idem]
        · rw [if_neg hNS4, collapseWs_idem]
          rw [nTailFun_eval3 _ hAf]
          simp only [safe_str_some]
          rw [if_neg (by rw [hW]; exact Bool.noConfusion), collapseWs_idem]
          rw [pTailFun_eval1 (optTruthy_some_of_ne _ hW) hnt2]
          simp only [safe_str_some]
          rw [if_neg hNS4, collapseWs_idem]
      · have hnt2f : optTruthy nt = false := by simpa using hnt2
        rw [pTailFun_eval2 (optTruthy_some_of_ne _ hW) hnt2f]
        simp only [safe_str_some]
        rw [collapseWs_idem]
        rw [nTailFun_eval3 _ hAf]
        simp only [safe_str_some]
        rw [if_neg (by rw [hW]; exact Bool.noConfusion), collapseWs_idem]
        rw [pTailFun_eval2 (optTruthy_some_of_ne _ hW) hnt2f]
        simp only [safe_str_some]
        rw [collapseWs_idem]

theorem finalizeHead_cons (c n : Elem) (rest : List Elem) :
    finalizeHead c (n :: rest) = c.withTail (spacingTailFun c.text c.tail n.text) := rfl

theorem finalizeHead_text (n : Elem) :
    ∀ rest : List Elem, (finalizeHead n rest).text = n.text
  | [] => rfl
  | _ :: _ => Elem.withTail_text n _

theorem spacingWinMap_cons (c : Elem) (rest : List Elem) :
    spacingWinMap (c :: rest) = finalizeHead c rest :: spacingWinMap rest := by
  cases rest <;> rfl

theorem spacingLoop_none_cons (c : Elem) (rest : List Elem) :
    spacingLoop none (c :: rest) = spacingLoop (some (nextCarry c rest)) rest := by
  cases rest <;> rfl

theorem spacingLoop_some_cons (p c : Elem) (rest : List Elem) :
    spacingLoop (some p) (c :: rest)
      = (spacingPrevStep p c).1
        :: spacingLoop (some (nextCarry (spacingPrevStep p c).2 rest)) rest := by
  cases rest <;> rfl

/-- Invariant of the sweep: entering the loop with the carried form of a
child produces that child's final form followed by the windowed rewrite
of the remaining children. -/
theorem spacingLoop_carry : ∀ (l : List Elem) (c : Elem),
    spacingLoop (some (nextCarry c l)) l = finalizeHead c l :: spacingWinMap l
  | [], _ => rfl
  | n :: rest, c => by
    show spacingLoop (some (spacingNextStep c n.text)) (n :: rest) = _
    rw [spacingLoop_some_cons, spacingPrevStep_snd_dead, spacingLoop_carry rest n]
    rw [spacingPrevStep_fst, spacingNextStep_eq, Elem.withTail_tail,
      Elem.withTail_withTail]
    rw [finalizeHead_cons, spacingWinMap_cons]
    rfl

/-- The sequential in-place loop of `fix_spacing_around_tags` equals the
windowed per-boundary rewrite. -/
theorem spacingLoop_eq_win : ∀ l : List Elem, spacingLoop none l = spacingWinMap l
  | [] => rfl
  | c :: rest => by
    rw [spacingLoop_none_cons, spacingLoop_carry rest c, spacingWinMap_cons]

theorem finalizeHead_absorb (c n : Elem) (rest : List Elem) (h : Elem) (l2 : List Elem)
    (hh : h.text = n.text) :
    finalizeHead (finalizeHead c (n :: rest)) (h :: l2) = finalizeHead c (n :: rest) := by
  rw [finalizeHead_cons (finalizeHead c (n :: rest)) h l2, hh, finalizeHead_cons c n rest,
    Elem.withTail_text, Elem.withTail_tail, spacingTailFun_idem, Elem.withTail_withTail]

/-- The windowed rewrite is idempotent, boundary by boundary. -/
theorem spacingWinMap_idem : ∀ l : List Elem, spacingWinMap (spacingWinMap l) = spacingWinMap l
  | [] => rfl
  | [_] => rfl
  | c :: n :: rest => by
    rw [spacingWinMap_cons c (n :: rest), spacingWinMap_cons n rest]
    rw [spacingWinMap_cons (finalizeHead c (n :: rest)) (finalizeHead n rest :: spacingWinMap rest)]
    rw [finalizeHead_absorb c n rest _ _ (finalizeHead_text n rest)]
    have h2 := spacingWinMap_idem (n :: rest)
    rw [spacingWinMap_cons n rest] at h2
    rw [h2]

theorem fix_text (e : Elem) : (fix_spacing_around_tags e).text = e.text := by
  cases e; rfl

theorem fix_tail (e : Elem) : (fix_spacing_around_tags e).tail = e.tail := by
  cases e; rfl

theorem fix_withTail (e : Elem) (x : Option String) :
    fix_spacing_around_tags (e.withTail x) = (fix_spacing_around_tags e).withTail x := by
  cases e; rfl

/-- The recursion into children commutes with the windowed rewrite of a
sibling list: the former only touches `children` fields, the latter only
tails. -/
theorem fixList_winMap : ∀ l : List Elem,
    fixSpacingList (spacingWinMap l) = spacingWinMap (fixSpacingList l)
  | [] => rfl
  | [_] => rfl
  | c :: n :: rest => by
    have hL : fixSpacingList (spacingWinMap (c :: n :: rest))
        = (fix_spacing_around_tags c).withTail (spacingTailFun c.text c.tail n.text)
          :: fixSpacingList (spacingWinMap (n :: rest)) := by
      rw [spacingWinMap_cons c (n :: rest), finalizeHead_cons]
      show fix_spacing_around_tags (c.withTail (spacingTailFun c.text c.tail n.text))
          :: fixSpacingList (spacingWinMap (n :: rest)) = _
      rw [fix_withTail]
    have hR : spacingWinMap (fixSpacingList (c :: n :: rest))
        = (fix_spacing_around_tags c).withTail (spacingTailFun c.text c.tail n.text)
          :: spacingWinMap (fixSpacingList (n :: rest)) := by
      show spacingWinMap (fix_spacing_around_tags c :: fixSpacingList (n :: rest)) = _
      rw [spacingWinMap_cons (fix_spacing_around_tags c) (fixSpacingList (n :: rest))]
      show finalizeHead (fix_spacing_around_tags c)
          (fix_spacing_around_tags n :: fixSpacingList rest)
          :: spacingWinMap (fixSpacingList (n :: rest)) = _
      rw [finalizeHead_cons, fix_text c, fix_tail c, fix_text n]
    rw [hL, hR, fixList_winMap (n :: rest)]

/-- Idempotence of the spacing fix over a list of sibling subtrees. -/
theorem fixList_idem : ∀ l : List Elem,
    fixSpacingList (fixSpacingList l) = fixSpacingList l
  | [] => rfl
  | c :: cs => by
    have hc : fix_spacing_around_tags (fix_spacing_around_tags c)
        = fix_spacing_around_tags c := by
      match c with
      | .mk t a tx ch tl ns =>
        show Elem.mk t a tx
            (spacingLoop none (fixSpacingList (spacingLoop none (fixSpacingList ch)))) tl ns
          = Elem.mk t a tx (spacingLoop none (fixSpacingList ch)) tl ns
        rw [spacingLoop_eq_win (fixSpacingList ch),
          spacingLoop_eq_win (fixSpacingList (spacingWinMap (fixSpacingList ch))),
          fixList_winMap (fixSpacingList ch), fixList_idem ch, spacingWinMap_idem]
    show fix_spacing_around_tags (fix_spacing_around_tags c)
        :: fixSpacingList (fixSpacingList cs)
      = fix_spacing_around_tags c :: fixSpacingList cs
    rw [hc, fixList_idem cs]

/-- C5: running `fix_spacing_around_tags` twice over any document tree
gives the same tree as running it once — the post-pass spacing
normalizer is idempotent. -/
theorem claim_C5_idempotent (e : Elem) :
    fix_spacing_around_tags (fix_spacing_around_tags e) = fix_spacing_around_tags e := by
  match e with
  | .mk t a tx ch tl ns =>
    show Elem.mk t a tx
        (spacingLoop none (fixSpacingList (spacingLoop none (fixSpacingList ch)))) tl ns
      = Elem.mk t a tx (spacingLoop none (fixSpacingList ch)) tl ns
    rw [spacingLoop_eq_win (fixSpacingList ch),
      spacingLoop_eq_win (fixSpacingList (spacingWinMap (fixSpacingList ch))),
      fixList_winMap (fixSpacingList ch), fixList_idem ch, spacingWinMap_idem]

end XliffApp
